import Mathlib

/-!
# Verification of the `pylinked` linked-list containers

Shallow embedding of `src/single.py` (class `SinglyLinked` and its `Node`)
and `src/pylinked.py` (class `Double` and its `Node`).

Python objects live on a heap; node identity (`is` comparisons in the
source) is modelled by heap addresses (`Nat`).  Each container state
carries the heap as a function `Nat → node`, an allocation counter
`size` (fresh nodes are allocated at address `size`), the `head`/`tail`
references (`Option Nat`, `none` modelling Python `None`) and the
`_length` counter (an `Int`, since the source decrements it without a
lower bound).

Operations that can raise return the raised exception alongside the
post-state, so that incomplete mutation before a raise is observable.
Loops over the `next`/`last` links are given `size` as fuel; on the
well-formed states characterised below the fuel is never exhausted.
-/

deriving instance DecidableEq for Except

/-- Exceptions raised by the source code.  `nonTermination` is a model
artefact marking fuel exhaustion of a traversal; it is never produced
on well-formed states. -/
inductive PyErr where
  | indexError
  | valueError
  | attributeError
  | nonTermination
deriving DecidableEq, Repr

/-- An argument to `__getitem__` / `__setitem__`: an integer index or a
slice object. -/
inductive Idx where
  | int (i : Int)
  | slice
deriving DecidableEq, Repr

/-- A `node_or_index` argument: the source dispatches on
`isinstance(arg, Node)` (or on an `AttributeError` probe). -/
inductive Ref where
  | node (i : Nat)
  | idx (i : Int)
deriving DecidableEq, Repr

/-- `Node` of `src/single.py`: a value and a forward link. -/
structure SNode (α : Type) where
  value : α
  next_node : Option Nat
deriving DecidableEq, Repr

instance {α} [Inhabited α] : Inhabited (SNode α) := ⟨⟨default, none⟩⟩

/-- `Node` of `src/pylinked.py`: a value, a forward link and a back link. -/
structure DNode (α : Type) where
  value : α
  next_node : Option Nat
  last_node : Option Nat
deriving DecidableEq, Repr

instance {α} [Inhabited α] : Inhabited (DNode α) := ⟨⟨default, none, none⟩⟩

/-! ## Generic traversal over a heap

`traverseF h f fuel cur` follows the link selected by `f` starting at
cursor `cur`, returning the list of visited addresses; this models the
`while node is not None` loops of `__iter__` and `iter_reverse`. -/

def traverseF {ν : Type} (h : Nat → ν) (f : ν → Option Nat) : Nat → Option Nat → List Nat
  | 0, _ => []
  | _ + 1, none => []
  | fuel + 1, some i => i :: traverseF h f fuel (f (h i))

/-- `nthNodeF h f fuel cur k` is the `k`-th node of the traversal, as
produced by the `for i, node in enumerate(self): if i == index` loops. -/
def nthNodeF {ν : Type} (h : Nat → ν) (f : ν → Option Nat) : Nat → Option Nat → Nat → Option Nat
  | 0, _, _ => none
  | _ + 1, none, _ => none
  | _ + 1, some i, 0 => some i
  | fuel + 1, some i, k + 1 => nthNodeF h f fuel (f (h i)) k

/-! ### Single-attribute heap assignments

Python mutates one attribute of one node at a time
(`node.next_node = x`, `node.value = v`, ...); these helpers are those
assignments on the heap. -/

/-- `node.next_node = j` on a singly-linked heap. -/
def updNextS {α : Type} (h : Nat → SNode α) (i : Nat) (j : Option Nat) : Nat → SNode α :=
  Function.update h i { h i with next_node := j }

/-- `node.value = v` on a singly-linked heap. -/
def updValueS {α : Type} (h : Nat → SNode α) (i : Nat) (v : α) : Nat → SNode α :=
  Function.update h i { h i with value := v }

/-- `node.next_node = j` on a doubly-linked heap. -/
def updNextD {α : Type} (h : Nat → DNode α) (i : Nat) (j : Option Nat) : Nat → DNode α :=
  Function.update h i { h i with next_node := j }

/-- `node.last_node = j` on a doubly-linked heap. -/
def updLastD {α : Type} (h : Nat → DNode α) (i : Nat) (j : Option Nat) : Nat → DNode α :=
  Function.update h i { h i with last_node := j }

/-- `node.value = v` on a doubly-linked heap. -/
def updValueD {α : Type} (h : Nat → DNode α) (i : Nat) (v : α) : Nat → DNode α :=
  Function.update h i { h i with value := v }

@[simp] theorem updNextS_value {α : Type} (h : Nat → SNode α) (i : Nat) (j : Option Nat)
    (x : Nat) : (updNextS h i j x).value = (h x).value := by
  rcases eq_or_ne x i with rfl | hx
  · rw [updNextS, Function.update_same]
  · rw [updNextS, Function.update_noteq hx]

@[simp] theorem updNextS_next_self {α : Type} (h : Nat → SNode α) (i : Nat) (j : Option Nat) :
    (updNextS h i j i).next_node = j := by
  simp [updNextS]

theorem updNextS_next_of_ne {α : Type} (h : Nat → SNode α) (i : Nat) (j : Option Nat)
    {x : Nat} (hx : x ≠ i) : (updNextS h i j x).next_node = (h x).next_node := by
  simp [updNextS, Function.update_noteq hx]

@[simp] theorem updValueS_next {α : Type} (h : Nat → SNode α) (i : Nat) (v : α)
    (x : Nat) : (updValueS h i v x).next_node = (h x).next_node := by
  rcases eq_or_ne x i with rfl | hx
  · rw [updValueS, Function.update_same]
  · rw [updValueS, Function.update_noteq hx]

@[simp] theorem updValueS_value_self {α : Type} (h : Nat → SNode α) (i : Nat) (v : α) :
    (updValueS h i v i).value = v := by
  simp [updValueS]

theorem updValueS_value_of_ne {α : Type} (h : Nat → SNode α) (i : Nat) (v : α)
    {x : Nat} (hx : x ≠ i) : (updValueS h i v x).value = (h x).value := by
  simp [updValueS, Function.update_noteq hx]

@[simp] theorem updNextD_value {α : Type} (h : Nat → DNode α) (i : Nat) (j : Option Nat)
    (x : Nat) : (updNextD h i j x).value = (h x).value := by
  rcases eq_or_ne x i with rfl | hx
  · rw [updNextD, Function.update_same]
  · rw [updNextD, Function.update_noteq hx]

@[simp] theorem updNextD_last {α : Type} (h : Nat → DNode α) (i : Nat) (j : Option Nat)
    (x : Nat) : (updNextD h i j x).last_node = (h x).last_node := by
  rcases eq_or_ne x i with rfl | hx
  · rw [updNextD, Function.update_same]
  · rw [updNextD, Function.update_noteq hx]

@[simp] theorem updNextD_next_self {α : Type} (h : Nat → DNode α) (i : Nat) (j : Option Nat) :
    (updNextD h i j i).next_node = j := by
  simp [updNextD]

theorem updNextD_next_of_ne {α : Type} (h : Nat → DNode α) (i : Nat) (j : Option Nat)
    {x : Nat} (hx : x ≠ i) : (updNextD h i j x).next_node = (h x).next_node := by
  simp [updNextD, Function.update_noteq hx]

@[simp] theorem updLastD_value {α : Type} (h : Nat → DNode α) (i : Nat) (j : Option Nat)
    (x : Nat) : (updLastD h i j x).value = (h x).value := by
  rcases eq_or_ne x i with rfl | hx
  · rw [updLastD, Function.update_same]
  · rw [updLastD, Function.update_noteq hx]

@[simp] theorem updLastD_next {α : Type} (h : Nat → DNode α) (i : Nat) (j : Option Nat)
    (x : Nat) : (updLastD h i j x).next_node = (h x).next_node := by
  rcases eq_or_ne x i with rfl | hx
  · rw [updLastD, Function.update_same]
  · rw [updLastD, Function.update_noteq hx]

@[simp] theorem updLastD_last_self {α : Type} (h : Nat → DNode α) (i : Nat) (j : Option Nat) :
    (updLastD h i j i).last_node = j := by
  simp [updLastD]

theorem updLastD_last_of_ne {α : Type} (h : Nat → DNode α) (i : Nat) (j : Option Nat)
    {x : Nat} (hx : x ≠ i) : (updLastD h i j x).last_node = (h x).last_node := by
  simp [updLastD, Function.update_noteq hx]

@[simp] theorem updValueD_next {α : Type} (h : Nat → DNode α) (i : Nat) (v : α)
    (x : Nat) : (updValueD h i v x).next_node = (h x).next_node := by
  rcases eq_or_ne x i with rfl | hx
  · rw [updValueD, Function.update_same]
  · rw [updValueD, Function.update_noteq hx]

@[simp] theorem updValueD_last {α : Type} (h : Nat → DNode α) (i : Nat) (v : α)
    (x : Nat) : (updValueD h i v x).last_node = (h x).last_node := by
  rcases eq_or_ne x i with rfl | hx
  · rw [updValueD, Function.update_same]
  · rw [updValueD, Function.update_noteq hx]

@[simp] theorem updValueD_value_self {α : Type} (h : Nat → DNode α) (i : Nat) (v : α) :
    (updValueD h i v i).value = v := by
  simp [updValueD]

theorem updValueD_value_of_ne {α : Type} (h : Nat → DNode α) (i : Nat) (v : α)
    {x : Nat} (hx : x ≠ i) : (updValueD h i v x).value = (h x).value := by
  simp [updValueD, Function.update_noteq hx]

/-- `chainSeg h f cur c stop`: starting from cursor `cur`, the links
selected by `f` pass exactly through the addresses `c` and then reach
`stop`.  This is the specification of a contiguous segment of a list. -/
def chainSeg {ν : Type} (h : Nat → ν) (f : ν → Option Nat) : Option Nat → List Nat → Option Nat → Prop
  | cur, [], stop => cur = stop
  | cur, i :: rest, stop => cur = some i ∧ chainSeg h f (f (h i)) rest stop

instance chainSeg.instDecidable {ν : Type} (h : Nat → ν) (f : ν → Option Nat) :
    (c : List Nat) → (cur stop : Option Nat) → Decidable (chainSeg h f cur c stop)
  | [], cur, stop => inferInstanceAs (Decidable (cur = stop))
  | i :: rest, cur, stop =>
    have : Decidable (chainSeg h f (f (h i)) rest stop) :=
      chainSeg.instDecidable h f rest (f (h i)) stop
    inferInstanceAs (Decidable (cur = some i ∧ chainSeg h f (f (h i)) rest stop))

/-- The values carried by the nodes at the addresses `c`. -/
def chainValuesF {ν α : Type} (h : Nat → ν) (g : ν → α) (c : List Nat) : List α :=
  c.map fun i => g (h i)

/-! ## `SinglyLinked` (src/single.py) -/

/-- State of a `SinglyLinked` object together with the heap of its nodes. -/
structure SinglyLinked (α : Type) where
  heap : Nat → SNode α
  size : Nat
  head : Option Nat
  tail : Option Nat
  len : Int

namespace SinglyLinked

variable {α : Type} [Inhabited α] [DecidableEq α]

/-- The empty list produced by `SinglyLinked.__init__` before `extend`. -/
def empty : SinglyLinked α :=
  { heap := fun _ => default, size := 0, head := none, tail := none, len := 0 }

/-- `__iter__`: node addresses from `head` following `next_node`. -/
def straverse (s : SinglyLinked α) : List Nat :=
  traverseF s.heap SNode.next_node s.size s.head

/-- `iter_values`: the values of the list in traversal order. -/
def iter_values (s : SinglyLinked α) : List α :=
  (straverse s).map fun i => (s.heap i).value

/-- `append_tail`.  Raises `AttributeError` in the (unreachable on
well-formed states) case `head ≠ None` but `tail = None`, where
`self.tail.next_node` dereferences `None`. -/
def append_tail (s : SinglyLinked α) (new_value : α) : Option PyErr × SinglyLinked α :=
  let nid := s.size
  let h0 := Function.update s.heap nid ⟨new_value, none⟩
  match s.head with
  | none =>
    (none, { heap := h0, size := nid + 1, head := some nid, tail := some nid, len := s.len + 1 })
  | some _ =>
    match s.tail with
    | none => (some .attributeError, { s with heap := h0, size := nid + 1 })
    | some t =>
      -- self.tail.next_node = self.tail = new_node  (targets assigned left to right)
      let h1 := updNextS h0 t (some nid)
      (none, { heap := h1, size := nid + 1, head := s.head, tail := some nid, len := s.len + 1 })

/-- `append_head`.  Never raises. -/
def append_head (s : SinglyLinked α) (new_value : α) : SinglyLinked α :=
  let nid := s.size
  let h0 := Function.update s.heap nid ⟨new_value, none⟩
  match s.head with
  | none =>
    { heap := h0, size := nid + 1, head := some nid, tail := some nid, len := s.len + 1 }
  | some hd =>
    -- new_node.next_node, self.head = self.head, new_node
    let h1 := updNextS h0 nid (some hd)
    { heap := h1, size := nid + 1, head := some nid, tail := s.tail, len := s.len + 1 }

/-- `extend`: `append_tail` each value; a raise propagates. -/
def extend (s : SinglyLinked α) : List α → Option PyErr × SinglyLinked α
  | [] => (none, s)
  | v :: vs =>
    match append_tail s v with
    | (none, s') => extend s' vs
    | (some e, s') => (some e, s')

/-- `SinglyLinked(*values)`: empty list, then `extend(values)`. -/
def ofList (vs : List α) : Option PyErr × SinglyLinked α :=
  extend empty vs

/-- `__getitem__`.  Slices are rejected; index `-1` returns the tail
when it exists; other negative indices are rejected; otherwise the
`enumerate` loop returns the matching node or raises `IndexError`.
(The loop compares the running counter with the index, so a remaining
negative index never matches and falls through to the raise.) -/
def getitem (s : SinglyLinked α) : Idx → Except PyErr Nat
  | .slice => .error .indexError
  | .int j =>
    match s.tail with
    | some t =>
      if j = -1 then .ok t
      else if j < 0 then .error .indexError
      else
        match nthNodeF s.heap SNode.next_node s.size s.head j.toNat with
        | some n => .ok n
        | none => .error .indexError
    | none =>
      if j < 0 then .error .indexError
      else
        match nthNodeF s.heap SNode.next_node s.size s.head j.toNat with
        | some n => .ok n
        | none => .error .indexError

/-- `__setitem__`: same index resolution as `__getitem__`, assigning
`node.value = value` on success. -/
def setitem (s : SinglyLinked α) (index : Idx) (value : α) : Option PyErr × SinglyLinked α :=
  match getitem s index with
  | .error e => (some e, s)
  | .ok n => (none, { s with heap := updValueS s.heap n value })

/-- `get_next`. -/
def get_next (s : SinglyLinked α) (known_node : Nat) : Option Nat :=
  (s.heap known_node).next_node

/-- `insert_after`.  The `try`/`except AttributeError` dispatch of the
source is the `Ref` match: an `int` argument has no `next_node`
attribute, so the `except` branch resolves the index via
`__getitem__`.  Note the source never updates `self.tail`. -/
def insert_after (s : SinglyLinked α) (node_or_index : Ref) (value : α) :
    Option PyErr × SinglyLinked α :=
  match node_or_index with
  | .node n =>
    let nid := s.size
    -- node_or_index.next_node = Node(value, node_or_index.next_node)
    let h0 := Function.update s.heap nid ⟨value, (s.heap n).next_node⟩
    let h1 := updNextS h0 n (some nid)
    (none, { s with heap := h1, size := nid + 1, len := s.len + 1 })
  | .idx j =>
    match getitem s (.int j) with
    | .error e => (some e, s)
    | .ok n =>
      let nid := s.size
      -- self[index].next_node = Node(value, self[index].next_node)
      let h0 := Function.update s.heap nid ⟨value, (s.heap n).next_node⟩
      let h1 := updNextS h0 n (some nid)
      (none, { s with heap := h1, size := nid + 1, len := s.len + 1 })

/-- `_remove_by_node`: unlink the head in O(1), otherwise scan for the
predecessor; `ValueError` when the scan exhausts without a match.  The
local variable `node` of the source (used for the tail fix-up) is the
returned cursor. -/
def _remove_by_node (s : SinglyLinked α) (node_to_remove : Nat) :
    Option PyErr × SinglyLinked α :=
  if s.head = some node_to_remove then
    -- node = self.head = self.head.next_node
    let node := (s.heap node_to_remove).next_node
    let s1 := { s with head := node }
    if s1.tail = some node_to_remove then (none, { s1 with tail := node }) else (none, s1)
  else
    match (straverse s).find? (fun i => (s.heap i).next_node = some node_to_remove) with
    | some p =>
      -- node.next_node = node_to_remove.next_node
      let h1 := updNextS s.heap p (s.heap node_to_remove).next_node
      let s1 := { s with heap := h1 }
      if s1.tail = some node_to_remove then (none, { s1 with tail := some p }) else (none, s1)
    | none => (some .valueError, s)

/-- `_remove_by_index`.  Index `-1` aliases the highest index; index
`0` unlinks the head (dereferencing `None` on the empty list); an index
within range resolves the predecessor via `self[index-1]`; otherwise
`IndexError`. -/
def _remove_by_index (s : SinglyLinked α) (index : Int) : Option PyErr × SinglyLinked α :=
  let highest_index : Int := s.len - 1
  let index := if index = -1 then highest_index else index
  if index = 0 then
    match s.head with
    | none => (some .attributeError, s)  -- self.head.next_node with head = None
    | some hd =>
      -- node = self.head = self.head.next_node
      let node := (s.heap hd).next_node
      let s1 := { s with head := node }
      if index = highest_index then (none, { s1 with tail := node }) else (none, s1)
  else if index ≤ highest_index then
    match getitem s (.int (index - 1)) with
    | .error e => (some e, s)
    | .ok p =>
      -- node.next_node = self.get_next(node).next_node
      match (s.heap p).next_node with
      | none => (some .attributeError, s)  -- get_next(node) is None
      | some m =>
        let h1 := updNextS s.heap p (s.heap m).next_node
        let s1 := { s with heap := h1 }
        if index = highest_index then (none, { s1 with tail := some p }) else (none, s1)
  else (some .indexError, s)

/-- `remove`: dispatch on `isinstance(node_or_index, Node)`, then
`self._length -= 1` (not reached when the helper raises). -/
def remove (s : SinglyLinked α) (node_or_index : Ref) : Option PyErr × SinglyLinked α :=
  match node_or_index with
  | .node n =>
    match _remove_by_node s n with
    | (none, s') => (none, { s' with len := s'.len - 1 })
    | (some e, s') => (some e, s')
  | .idx j =>
    match _remove_by_index s j with
    | (none, s') => (none, { s' with len := s'.len - 1 })
    | (some e, s') => (some e, s')

/-- Well-formedness: `c` lists the node addresses of the chain in
traversal order.  `head` starts the chain, the `next_node` links pass
exactly through `c` and end at `None`, `tail` is the last address,
`_length` is the node count, all addresses are allocated and distinct. -/
def isChainS (s : SinglyLinked α) (c : List Nat) : Prop :=
  chainSeg s.heap SNode.next_node s.head c none ∧
  s.tail = c.getLast? ∧
  s.len = (c.length : Int) ∧
  (∀ i ∈ c, i < s.size) ∧
  c.Nodup

instance (s : SinglyLinked α) (c : List Nat) : Decidable (isChainS s c) :=
  inferInstanceAs (Decidable (_ ∧ _ ∧ _ ∧ _ ∧ _))

end SinglyLinked

/-! ## `Double` (src/pylinked.py) -/

/-- State of a `Double` object together with the heap of its nodes. -/
structure Double (α : Type) where
  heap : Nat → DNode α
  size : Nat
  head : Option Nat
  tail : Option Nat
  len : Int

namespace Double

variable {α : Type} [Inhabited α] [DecidableEq α]

/-- The empty list produced by `Double.__init__` before `extend`. -/
def empty : Double α :=
  { heap := fun _ => default, size := 0, head := none, tail := none, len := 0 }

/-- `__iter__`: node addresses from `head` following `next_node`. -/
def dtraverse (s : Double α) : List Nat :=
  traverseF s.heap DNode.next_node s.size s.head

/-- `iter_values`: the values of the list in traversal order. -/
def iter_values (s : Double α) : List α :=
  (dtraverse s).map fun i => (s.heap i).value

/-- `iter_reverse`: node addresses from `tail` following `last_node`. -/
def iter_reverse (s : Double α) : List Nat :=
  traverseF s.heap DNode.last_node s.size s.tail

/-- The values carried by the nodes yielded by `iter_reverse`. -/
def reverse_values (s : Double α) : List α :=
  (iter_reverse s).map fun i => (s.heap i).value

/-- `append_tail`.  Raises `AttributeError` in the (unreachable on
well-formed states) case `head ≠ None` but `tail = None`. -/
def append_tail (s : Double α) (new_value : α) : Option PyErr × Double α :=
  let nid := s.size
  let h0 := Function.update s.heap nid ⟨new_value, none, none⟩
  match s.head with
  | none =>
    (none, { heap := h0, size := nid + 1, head := some nid, tail := some nid, len := s.len + 1 })
  | some _ =>
    match s.tail with
    | none => (some .attributeError, { s with heap := h0, size := nid + 1 })
    | some t =>
      -- self.tail.next_node, new_node.last_node = new_node, self.tail ; self.tail = new_node
      let h1 := updNextD h0 t (some nid)
      let h2 := updLastD h1 nid (some t)
      (none, { heap := h2, size := nid + 1, head := s.head, tail := some nid, len := s.len + 1 })

/-- `append_head`.  Never raises. -/
def append_head (s : Double α) (new_value : α) : Double α :=
  let nid := s.size
  let h0 := Function.update s.heap nid ⟨new_value, none, none⟩
  match s.head with
  | none =>
    { heap := h0, size := nid + 1, head := some nid, tail := some nid, len := s.len + 1 }
  | some hd =>
    -- self.head.last_node, new_node.next_node = new_node, self.head ; self.head = new_node
    let h1 := updLastD h0 hd (some nid)
    let h2 := updNextD h1 nid (some hd)
    { heap := h2, size := nid + 1, head := some nid, tail := s.tail, len := s.len + 1 }

/-- `extend`: `append_tail` each value; a raise propagates. -/
def extend (s : Double α) : List α → Option PyErr × Double α
  | [] => (none, s)
  | v :: vs =>
    match append_tail s v with
    | (none, s') => extend s' vs
    | (some e, s') => (some e, s')

/-- `Double(*values)`: empty list, then `extend(values)`. -/
def ofList (vs : List α) : Option PyErr × Double α :=
  extend empty vs

/-- `__getitem__` (same logic as the singly-linked one). -/
def getitem (s : Double α) : Idx → Except PyErr Nat
  | .slice => .error .indexError
  | .int j =>
    match s.tail with
    | some t =>
      if j = -1 then .ok t
      else if j < 0 then .error .indexError
      else
        match nthNodeF s.heap DNode.next_node s.size s.head j.toNat with
        | some n => .ok n
        | none => .error .indexError
    | none =>
      if j < 0 then .error .indexError
      else
        match nthNodeF s.heap DNode.next_node s.size s.head j.toNat with
        | some n => .ok n
        | none => .error .indexError

/-- `__setitem__`. -/
def setitem (s : Double α) (index : Idx) (value : α) : Option PyErr × Double α :=
  match getitem s index with
  | .error e => (some e, s)
  | .ok n => (none, { s with heap := updValueD s.heap n value })

/-- `get_next`. -/
def get_next (s : Double α) (known_node : Nat) : Option Nat :=
  (s.heap known_node).next_node

/-- `get_previous`. -/
def get_previous (s : Double α) (known_node : Nat) : Option Nat :=
  (s.heap known_node).last_node

/-- `node = after if isinstance(after, Node) else self[after]`. -/
def resolveRef (s : Double α) : Ref → Except PyErr Nat
  | .node n => .ok n
  | .idx j => getitem s (.int j)

/-- Splice of `insert_after` once the target node is resolved.
`new_node = Node(value, node, node.next_node)`; the tail is updated
when `node is self.tail`, otherwise `node.next_node.last_node` is
relinked (raising `AttributeError` when `node.next_node` is `None`). -/
def insert_after_node (s : Double α) (n : Nat) (value : α) : Option PyErr × Double α :=
  let nid := s.size
  let h0 := Function.update s.heap nid ⟨value, (s.heap n).next_node, some n⟩
  if s.tail = some n then
    let h1 := updNextD h0 n (some nid)
    (none, { s with heap := h1, size := nid + 1, tail := some nid, len := s.len + 1 })
  else
    match (s.heap n).next_node with
    | none => (some .attributeError, { s with heap := h0, size := nid + 1 })
    | some m =>
      let h1 := updLastD h0 m (some nid)
      let h2 := updNextD h1 n (some nid)
      (none, { s with heap := h2, size := nid + 1, len := s.len + 1 })

/-- `insert_after`. -/
def insert_after (s : Double α) (after : Ref) (value : α) : Option PyErr × Double α :=
  match resolveRef s after with
  | .error e => (some e, s)
  | .ok n => insert_after_node s n value

/-- Splice of `insert_before` once the target node is resolved.
`new_node = Node(value, node.last_node, node)`. -/
def insert_before_node (s : Double α) (n : Nat) (value : α) : Option PyErr × Double α :=
  let nid := s.size
  let h0 := Function.update s.heap nid ⟨value, some n, (s.heap n).last_node⟩
  if s.head = some n then
    let h1 := updLastD h0 n (some nid)
    (none, { s with heap := h1, size := nid + 1, head := some nid, len := s.len + 1 })
  else
    match (s.heap n).last_node with
    | none => (some .attributeError, { s with heap := h0, size := nid + 1 })
    | some p =>
      let h1 := updNextD h0 p (some nid)
      let h2 := updLastD h1 n (some nid)
      (none, { s with heap := h2, size := nid + 1, len := s.len + 1 })

/-- `insert_before`. -/
def insert_before (s : Double α) (before : Ref) (value : α) : Option PyErr × Double α :=
  match resolveRef s before with
  | .error e => (some e, s)
  | .ok n => insert_before_node s n value

/-- Unlinking of `remove` once the target node is resolved.  No
membership check is performed.  The second `if` reads the node's links
after the first relink (hence from `h1`), exactly as the source does. -/
def remove_node (s : Double α) (n : Nat) : Option PyErr × Double α :=
  let step1 : Except PyErr ((Nat → DNode α) × Option Nat) :=
    if s.head = some n then .ok (s.heap, (s.heap n).next_node)
    else
      match (s.heap n).last_node with
      | none => .error .attributeError  -- node.last_node.next_node with last_node = None
      | some p =>
        .ok (updNextD s.heap p (s.heap n).next_node, s.head)
  match step1 with
  | .error e => (some e, s)
  | .ok (h1, head1) =>
    if s.tail = some n then
      (none, { s with heap := h1, head := head1, tail := (h1 n).last_node, len := s.len - 1 })
    else
      match (h1 n).next_node with
      | none => (some .attributeError, { s with heap := h1, head := head1 })
      | some q =>
        (none, { s with
                   heap := updLastD h1 q (h1 n).last_node
                   head := head1
                   len := s.len - 1 })

/-- `remove`. -/
def remove (s : Double α) (to_remove : Ref) : Option PyErr × Double α :=
  match resolveRef s to_remove with
  | .error e => (some e, s)
  | .ok n => remove_node s n

/-- The loop of `__eq__`: lock-step forward traversal of both lists,
comparing values and testing `node is self.tail` / `other_node is
other.tail`.  At the loop head a `None` cursor raises `AttributeError`
(`node.value` on `None`); after advancing, a `None` cursor returns
`False`. -/
def eqLoop (s t : Double α) : Nat → Option Nat → Option Nat → Except PyErr Bool
  | 0, _, _ => .error .nonTermination
  | _ + 1, none, _ => .error .attributeError
  | _ + 1, some _, none => .error .attributeError
  | fuel + 1, some n, some o =>
    if (s.heap n).value ≠ (t.heap o).value then .ok false
    else if s.tail = some n ∧ t.tail = some o then .ok true
    else
      match (s.heap n).next_node, (t.heap o).next_node with
      | none, _ => .ok false
      | some _, none => .ok false
      | some n', some o' => eqLoop s t fuel (some n') (some o')

/-- `__eq__`.  A non-list operand (modelled as `none`) has no `head`
attribute; the `AttributeError` is caught and `False` returned. -/
def eq (s : Double α) (other : Option (Double α)) : Except PyErr Bool :=
  match other with
  | none => .ok false
  | some t => eqLoop s t (s.size + 1) s.head t.head

/-- Well-formedness: `c` lists the node addresses of the chain in
traversal order; the `next_node` links run through `c` from `head` to
`None` and the `last_node` links run through `c.reverse` from `tail`
to `None`. -/
def isChainD (s : Double α) (c : List Nat) : Prop :=
  chainSeg s.heap DNode.next_node s.head c none ∧
  chainSeg s.heap DNode.last_node s.tail c.reverse none ∧
  s.len = (c.length : Int) ∧
  (∀ i ∈ c, i < s.size) ∧
  c.Nodup

instance (s : Double α) (c : List Nat) : Decidable (isChainD s c) :=
  inferInstanceAs (Decidable (_ ∧ _ ∧ _ ∧ _ ∧ _))

end Double

/-! ## Node comparison operations (`__eq__` / `__lt__` on nodes)

The `try`/`except AttributeError` of the source probes the operand for
a `value` attribute: a node operand is compared value-to-value, a bare
value operand is compared against `self.value` directly. -/

/-- `Node.__eq__` of src/single.py. -/
def SNode.eq {α : Type} [DecidableEq α] (n : SNode α) (value_or_node : SNode α ⊕ α) : Bool :=
  match value_or_node with
  | .inl m => decide (n.value = m.value)
  | .inr v => decide (n.value = v)

/-- `Node.__lt__` of src/single.py. -/
def SNode.lt {α : Type} [LT α] [DecidableRel ((· < ·) : α → α → Prop)]
    (n : SNode α) (value_or_node : SNode α ⊕ α) : Bool :=
  match value_or_node with
  | .inl m => decide (n.value < m.value)
  | .inr v => decide (n.value < v)

/-- `Node.__eq__` of src/pylinked.py. -/
def DNode.eq {α : Type} [DecidableEq α] (n : DNode α) (value_or_node : DNode α ⊕ α) : Bool :=
  match value_or_node with
  | .inl m => decide (n.value = m.value)
  | .inr v => decide (n.value = v)

/-- `Node.__lt__` of src/pylinked.py. -/
def DNode.lt {α : Type} [LT α] [DecidableRel ((· < ·) : α → α → Prop)]
    (n : DNode α) (value_or_node : DNode α ⊕ α) : Bool :=
  match value_or_node with
  | .inl m => decide (n.value < m.value)
  | .inr v => decide (n.value < v)

/-! ## Lemmas about chain segments -/

section ChainLemmas

variable {ν α : Type} {h h' : Nat → ν} {f : ν → Option Nat}

theorem chainSeg_congr {c : List Nat} {cur stop : Option Nat}
    (hagree : ∀ i ∈ c, f (h' i) = f (h i)) (hc : chainSeg h f cur c stop) :
    chainSeg h' f cur c stop := by
  induction c generalizing cur with
  | nil => exact hc
  | cons i rest ih =>
    obtain ⟨rfl, hrest⟩ := hc
    refine ⟨rfl, ?_⟩
    rw [hagree i (List.mem_cons_self i rest)]
    exact ih (fun j hj => hagree j (List.mem_cons_of_mem i hj)) hrest

theorem chainSeg_append {c₁ c₂ : List Nat} {cur mid stop : Option Nat}
    (h₁ : chainSeg h f cur c₁ mid) (h₂ : chainSeg h f mid c₂ stop) :
    chainSeg h f cur (c₁ ++ c₂) stop := by
  induction c₁ generalizing cur with
  | nil => cases h₁; exact h₂
  | cons i rest ih =>
    obtain ⟨rfl, hrest⟩ := h₁
    exact ⟨rfl, ih hrest⟩

theorem chainSeg_split {c₁ c₂ : List Nat} {cur stop : Option Nat}
    (hc : chainSeg h f cur (c₁ ++ c₂) stop) :
    ∃ mid, chainSeg h f cur c₁ mid ∧ chainSeg h f mid c₂ stop := by
  induction c₁ generalizing cur with
  | nil => exact ⟨cur, rfl, hc⟩
  | cons i rest ih =>
    obtain ⟨rfl, hrest⟩ := hc
    obtain ⟨mid, hm₁, hm₂⟩ := ih hrest
    exact ⟨mid, ⟨rfl, hm₁⟩, hm₂⟩

theorem chainSeg_cons_elim {i : Nat} {rest : List Nat} {cur stop : Option Nat}
    (hc : chainSeg h f cur (i :: rest) stop) :
    cur = some i ∧ chainSeg h f (f (h i)) rest stop := hc

theorem chainSeg_none_elim {i : Nat} {rest : List Nat} {stop : Option Nat}
    (hc : chainSeg h f none (i :: rest) stop) : False := by
  exact Option.noConfusion hc.1

theorem traverseF_eq {c : List Nat} {cur : Option Nat} {fuel : Nat}
    (hc : chainSeg h f cur c none) (hfuel : c.length ≤ fuel) :
    traverseF h f fuel cur = c := by
  induction c generalizing cur fuel with
  | nil =>
    cases hc
    cases fuel <;> rfl
  | cons i rest ih =>
    obtain ⟨rfl, hrest⟩ := hc
    cases fuel with
    | zero => exact absurd hfuel (by simp)
    | succ fuel =>
      show i :: traverseF h f fuel (f (h i)) = i :: rest
      rw [ih hrest (by simpa using Nat.succ_le_succ_iff.mp hfuel)]

theorem nthNodeF_eq {c : List Nat} {cur : Option Nat} {fuel k : Nat}
    (hc : chainSeg h f cur c none) (hk : k < c.length) (hfuel : k < fuel) :
    nthNodeF h f fuel cur k = some (c.get ⟨k, hk⟩) := by
  induction c generalizing cur fuel k with
  | nil => exact absurd hk (by simp)
  | cons i rest ih =>
    obtain ⟨rfl, hrest⟩ := hc
    cases fuel with
    | zero => exact absurd hfuel (by omega)
    | succ fuel =>
      cases k with
      | zero => rfl
      | succ k =>
        show nthNodeF h f fuel (f (h i)) k = _
        rw [ih hrest (by simpa using Nat.succ_lt_succ_iff.mp hk) (by omega)]
        rfl

theorem nthNodeF_mem {c : List Nat} {cur : Option Nat} {fuel k n : Nat}
    (hc : chainSeg h f cur c none) (hn : nthNodeF h f fuel cur k = some n) :
    n ∈ c := by
  induction c generalizing cur fuel k with
  | nil =>
    cases hc
    cases fuel with
    | zero => exact Option.noConfusion hn
    | succ fuel => exact Option.noConfusion hn
  | cons i rest ih =>
    obtain ⟨rfl, hrest⟩ := hc
    cases fuel with
    | zero => exact Option.noConfusion hn
    | succ fuel =>
      cases k with
      | zero =>
        cases hn
        exact List.mem_cons_self _ _
      | succ k => exact List.mem_cons_of_mem _ (ih hrest hn)

theorem chainSeg_chain {c : List Nat} {cur stop : Option Nat}
    (hc : chainSeg h f cur c stop) :
    c.Chain' (fun a b => f (h a) = some b) := by
  induction c generalizing cur with
  | nil => exact List.chain'_nil
  | cons i rest ih =>
    obtain ⟨rfl, hrest⟩ := hc
    cases rest with
    | nil => simp
    | cons j rest' =>
      refine List.chain'_cons.mpr ⟨hrest.1, ih hrest⟩

theorem chainSeg_getLast {c : List Nat} {cur stop : Option Nat} {i : Nat}
    (hc : chainSeg h f cur c stop) (hlast : c.getLast? = some i) :
    f (h i) = stop := by
  induction c generalizing cur with
  | nil => exact Option.noConfusion hlast
  | cons j rest ih =>
    obtain ⟨rfl, hrest⟩ := hc
    cases rest with
    | nil =>
      cases hlast
      exact hrest
    | cons k rest' =>
      exact ih hrest (by simpa [List.getLast?_cons_cons] using hlast)

theorem chainSeg_split_cons {l₁ l₂ : List Nat} {n : Nat} {cur stop : Option Nat}
    (hc : chainSeg h f cur (l₁ ++ n :: l₂) stop) :
    chainSeg h f cur l₁ (some n) ∧ chainSeg h f (f (h n)) l₂ stop := by
  obtain ⟨mid, h1, h2⟩ := chainSeg_split hc
  obtain ⟨rfl, h3⟩ := h2
  exact ⟨h1, h3⟩

theorem chainSeg_append_cons {l₁ l₂ : List Nat} {n : Nat} {cur stop : Option Nat}
    (h1 : chainSeg h f cur l₁ (some n)) (h2 : chainSeg h f (f (h n)) l₂ stop) :
    chainSeg h f cur (l₁ ++ n :: l₂) stop :=
  chainSeg_append h1 ⟨rfl, h2⟩

/-- Decomposition of a nodup list split around one element. -/
theorem nodup_split {c₁ c₂ : List Nat} {n : Nat} (hnd : (c₁ ++ n :: c₂).Nodup) :
    n ∉ c₁ ∧ n ∉ c₂ ∧ c₁.Nodup ∧ c₂.Nodup ∧ ∀ x ∈ c₁, x ∉ c₂ := by
  rw [List.nodup_append] at hnd
  obtain ⟨h₁, h₂, hdisj⟩ := hnd
  rw [List.nodup_cons] at h₂
  refine ⟨fun hn => hdisj hn (List.mem_cons_self _ _), h₂.1, h₁, h₂.2, ?_⟩
  intro x hx hx'
  exact hdisj hx (List.mem_cons_of_mem _ hx')

/-- The optional last element of a list is an element. -/
theorem getLast?_mem_of_eq {β : Type} {l : List β} {x : β} (h : l.getLast? = some x) :
    x ∈ l := by
  rcases List.eq_nil_or_concat l with rfl | ⟨l', y, hly⟩
  · exact absurd h (by simp)
  · rw [List.concat_eq_append] at hly
    subst hly
    have hy : (l' ++ [y]).getLast? = some y := by simp
    rw [hy] at h
    have : y = x := by injection h
    subst this
    simp

/-- A nodup list of addresses below `n` has at most `n` elements. -/
theorem nodup_length_le {c : List Nat} {n : Nat}
    (hnd : c.Nodup) (hlt : ∀ i ∈ c, i < n) : c.length ≤ n := by
  classical
  calc c.length = c.toFinset.card := (List.toFinset_card_of_nodup hnd).symm
    _ ≤ (Finset.range n).card := by
        refine Finset.card_le_card ?_
        intro x hx
        simpa using hlt x (List.mem_toFinset.mp hx)
    _ = n := Finset.card_range n

end ChainLemmas

/-! ## Preservation of well-formedness by the `Double` operations -/

namespace Double

variable {α : Type} [Inhabited α] [DecidableEq α]

theorem append_tail_chain {s : Double α} {c : List Nat} (v : α) (hc : isChainD s c) :
    (s.append_tail v).1 = none ∧
    isChainD (s.append_tail v).2 (c ++ [s.size]) ∧
    chainValuesF (s.append_tail v).2.heap DNode.value (c ++ [s.size]) =
      chainValuesF s.heap DNode.value c ++ [v] := by
  obtain ⟨hfwd, hbwd, hlen, hbound, hnd⟩ := hc
  rcases List.eq_nil_or_concat c with rfl | ⟨c', t, hct⟩
  · have hh : s.head = none := hfwd
    have hstep : s.append_tail v =
        (none, { heap := Function.update s.heap s.size ⟨v, none, none⟩, size := s.size + 1,
                 head := some s.size, tail := some s.size, len := s.len + 1 }) := by
      simp [Double.append_tail, hh]
    rw [hstep]
    have hlen0 : s.len = 0 := by simpa using hlen
    refine ⟨rfl, ⟨⟨rfl, ?_⟩, ⟨rfl, ?_⟩, ?_, ?_, ?_⟩, ?_⟩
    · simp [Function.update_same, chainSeg]
    · simp [Function.update_same, chainSeg]
    · simp [hlen0]
    · simp
    · simp
    · simp [chainValuesF, Function.update_same]
  · -- c = c' ++ [t]; the list is non-empty with tail node t
    rw [List.concat_eq_append] at hct
    subst hct
    have htne : t ∉ c' := (nodup_split hnd).1
    have hrev : (c' ++ [t]).reverse = t :: c'.reverse := by simp
    rw [hrev] at hbwd
    have htail : s.tail = some t := hbwd.1
    have hbwd2 : chainSeg s.heap DNode.last_node ((s.heap t).last_node) c'.reverse none :=
      hbwd.2
    obtain ⟨hfwd1, hfwd2⟩ := chainSeg_split_cons hfwd
    have hhead : ∃ hd, s.head = some hd := by
      cases hcc : (c' ++ [t]) with
      | nil => exact absurd hcc (by simp)
      | cons x rest =>
        rw [hcc] at hfwd
        exact ⟨x, hfwd.1⟩
    obtain ⟨hd, hhd⟩ := hhead
    have htb : t < s.size := hbound t (by simp)
    have hstep : s.append_tail v =
        (none, { heap := updLastD (updNextD (Function.update s.heap s.size ⟨v, none, none⟩)
                   t (some s.size)) s.size (some t),
                 size := s.size + 1, head := s.head, tail := some s.size,
                 len := s.len + 1 }) := by
      simp [Double.append_tail, hhd, htail]
    rw [hstep]
    set nid := s.size with hnid
    set h0 : Nat → DNode α := Function.update s.heap nid ⟨v, none, none⟩ with hh0
    set h2 : Nat → DNode α := updLastD (updNextD h0 t (some nid)) nid (some t) with hh2
    have hread : ∀ x, x ≠ nid → x ≠ t → h2 x = s.heap x := by
      intro x hx1 hx2
      rw [hh2, updLastD, Function.update_noteq hx1, updNextD, Function.update_noteq hx2,
        hh0, Function.update_noteq hx1]
    have htnid : t ≠ nid := by omega
    have hreadt : h2 t = { s.heap t with next_node := some nid } := by
      rw [hh2, updLastD, Function.update_noteq htnid, updNextD, Function.update_same,
        hh0, Function.update_noteq htnid]
    have hreadnid : h2 nid = ⟨v, none, some t⟩ := by
      have hX : updNextD h0 t (some nid) nid = (⟨v, none, none⟩ : DNode α) := by
        rw [updNextD, Function.update_noteq (Ne.symm htnid), hh0, Function.update_same]
      rw [hh2, updLastD, Function.update_same, hX]
    have hfresh : ∀ x ∈ c' ++ [t], x ≠ nid := by
      intro x hx
      have := hbound x hx
      omega
    have hreadc : ∀ x ∈ c', h2 x = s.heap x := by
      intro x hx
      exact hread x (hfresh x (by simp [hx])) (fun hxt => htne (hxt ▸ hx))
    refine ⟨rfl, ⟨?_, ?_, ?_, ?_, ?_⟩, ?_⟩
    · -- forward chain
      show chainSeg h2 DNode.next_node s.head ((c' ++ [t]) ++ [nid]) none
      have hassoc : (c' ++ [t]) ++ [nid] = c' ++ t :: [nid] := by simp
      rw [hassoc]
      refine chainSeg_append_cons ?_ ?_
      · exact chainSeg_congr (fun i hi => by rw [hreadc i hi]) hfwd1
      · rw [hreadt]
        exact ⟨rfl, show (h2 nid).next_node = none by rw [hreadnid]⟩
    · -- backward chain
      show chainSeg h2 DNode.last_node (some nid) (((c' ++ [t]) ++ [nid]).reverse) none
      have hassoc : ((c' ++ [t]) ++ [nid]).reverse = nid :: t :: c'.reverse := by simp
      rw [hassoc]
      refine ⟨rfl, ?_, ?_⟩
      · rw [hreadnid]
      · rw [hreadt]
        show chainSeg h2 DNode.last_node ((s.heap t).last_node) c'.reverse none
        refine chainSeg_congr (fun i hi => ?_) hbwd2
        rw [hreadc i (by simpa using hi)]
    · show s.len + 1 = (((c' ++ [t]) ++ [nid]).length : Int)
      rw [hlen]
      simp [List.length_append]
      omega
    · intro i hi
      show i < nid + 1
      rcases List.mem_append.mp hi with hi | hi
      · exact Nat.lt_succ_of_lt (hbound i hi)
      · simp at hi
        omega
    · rw [List.nodup_append]
      refine ⟨hnd, by simp, ?_⟩
      intro x hx hx'
      simp at hx'
      exact hfresh x hx hx'
    · show chainValuesF h2 DNode.value ((c' ++ [t]) ++ [nid]) =
        chainValuesF s.heap DNode.value (c' ++ [t]) ++ [v]
      rw [chainValuesF, chainValuesF, List.map_append]
      congr 1
      · refine List.map_congr_left ?_
        intro i hi
        rcases List.mem_append.mp hi with hi | hi
        · rw [hreadc i hi]
        · simp at hi
          rw [hi, hreadt]
      · simp [hreadnid]

theorem append_head_chain {s : Double α} {c : List Nat} (v : α) (hc : isChainD s c) :
    isChainD (s.append_head v) (s.size :: c) ∧
    chainValuesF (s.append_head v).heap DNode.value (s.size :: c) =
      v :: chainValuesF s.heap DNode.value c := by
  obtain ⟨hfwd, hbwd, hlen, hbound, hnd⟩ := hc
  cases hcc : c with
  | nil =>
    subst hcc
    have hh : s.head = none := hfwd
    have hstep : s.append_head v =
        { heap := Function.update s.heap s.size ⟨v, none, none⟩, size := s.size + 1,
          head := some s.size, tail := some s.size, len := s.len + 1 } := by
      simp [Double.append_head, hh]
    rw [hstep]
    have hlen0 : s.len = 0 := by simpa using hlen
    refine ⟨⟨⟨rfl, ?_⟩, ⟨rfl, ?_⟩, ?_, ?_, ?_⟩, ?_⟩
    · simp [Function.update_same, chainSeg]
    · simp [Function.update_same, chainSeg]
    · simp [hlen0]
    · simp
    · simp
    · simp [chainValuesF, Function.update_same]
  | cons hd c' =>
    subst hcc
    have hhd : s.head = some hd := hfwd.1
    have hfwd2 : chainSeg s.heap DNode.next_node ((s.heap hd).next_node) c' none := hfwd.2
    have hhdb : hd < s.size := hbound hd (by simp)
    have hhdne : hd ∉ c' := (List.nodup_cons.mp hnd).1
    have hstep : s.append_head v =
        { heap := updNextD (updLastD (Function.update s.heap s.size ⟨v, none, none⟩)
            hd (some s.size)) s.size (some hd),
          size := s.size + 1, head := some s.size, tail := s.tail, len := s.len + 1 } := by
      simp [Double.append_head, hhd]
    rw [hstep]
    set nid := s.size with hnid
    set h0 : Nat → DNode α := Function.update s.heap nid ⟨v, none, none⟩ with hh0
    set h2 : Nat → DNode α := updNextD (updLastD h0 hd (some nid)) nid (some hd) with hh2
    have hhdnid : hd ≠ nid := by omega
    have hread : ∀ x, x ≠ nid → x ≠ hd → h2 x = s.heap x := by
      intro x hx1 hx2
      rw [hh2, updNextD, Function.update_noteq hx1, updLastD, Function.update_noteq hx2,
        hh0, Function.update_noteq hx1]
    have hreadhd : h2 hd = { s.heap hd with last_node := some nid } := by
      rw [hh2, updNextD, Function.update_noteq hhdnid, updLastD, Function.update_same,
        hh0, Function.update_noteq hhdnid]
    have hreadnid : h2 nid = ⟨v, some hd, none⟩ := by
      have hX : updLastD h0 hd (some nid) nid = (⟨v, none, none⟩ : DNode α) := by
        rw [updLastD, Function.update_noteq (Ne.symm hhdnid), hh0, Function.update_same]
      rw [hh2, updNextD, Function.update_same, hX]
    have hfresh : ∀ x ∈ hd :: c', x ≠ nid := by
      intro x hx
      have := hbound x hx
      omega
    have hreadc : ∀ x ∈ c', h2 x = s.heap x := by
      intro x hx
      exact hread x (hfresh x (by simp [hx])) (fun hxh => hhdne (hxh ▸ hx))
    refine ⟨⟨?_, ?_, ?_, ?_, ?_⟩, ?_⟩
    · -- forward chain
      show chainSeg h2 DNode.next_node (some nid) (nid :: hd :: c') none
      refine ⟨rfl, ?_, ?_⟩
      · rw [hreadnid]
      · rw [hreadhd]
        show chainSeg h2 DNode.next_node ((s.heap hd).next_node) c' none
        exact chainSeg_congr (fun i hi => by rw [hreadc i hi]) hfwd2
    · -- backward chain
      show chainSeg h2 DNode.last_node s.tail ((nid :: hd :: c').reverse) none
      have hassoc : (nid :: hd :: c').reverse = (hd :: c').reverse ++ nid :: [] := by simp
      rw [hassoc]
      refine chainSeg_append_cons ?_ ?_
      · -- old backward chain reaches hd whose last link now points at nid
        have hrev : (hd :: c').reverse = c'.reverse ++ hd :: [] := by simp
        rw [hrev] at hbwd ⊢
        obtain ⟨hb1, hb2⟩ := chainSeg_split_cons hbwd
        refine chainSeg_append_cons ?_ ?_
        · refine chainSeg_congr (fun i hi => ?_) hb1
          rw [hreadc i (by simpa using hi)]
        · rw [hreadhd]
          rfl
      · rw [hreadnid]
        rfl
    · show s.len + 1 = ((nid :: hd :: c').length : Int)
      rw [hlen]
      simp
    · intro i hi
      show i < nid + 1
      rcases List.mem_cons.mp hi with hi | hi
      · omega
      · exact Nat.lt_succ_of_lt (hbound i hi)
    · rw [List.nodup_cons]
      refine ⟨?_, hnd⟩
      intro hmem
      exact absurd rfl (hfresh nid hmem)
    · show chainValuesF h2 DNode.value (nid :: hd :: c') =
        v :: chainValuesF s.heap DNode.value (hd :: c')
      rw [chainValuesF, chainValuesF, List.map_cons, List.map_cons, List.map_cons]
      rw [hreadnid, hreadhd]
      refine congrArg₂ _ rfl (congrArg₂ _ rfl ?_)
      refine List.map_congr_left ?_
      intro i hi
      rw [hreadc i hi]

/-- `extend` preserves well-formedness and appends the given values. -/
theorem extend_chain {s : Double α} {c : List Nat} (vs : List α) (hc : isChainD s c) :
    (s.extend vs).1 = none ∧
    ∃ c', isChainD (s.extend vs).2 c' ∧
      chainValuesF (s.extend vs).2.heap DNode.value c' =
        chainValuesF s.heap DNode.value c ++ vs := by
  induction vs generalizing s c with
  | nil =>
    refine ⟨rfl, c, hc, ?_⟩
    show chainValuesF s.heap DNode.value c = chainValuesF s.heap DNode.value c ++ []
    simp
  | cons v vs ih =>
    obtain ⟨h1, h2, h3⟩ := append_tail_chain v hc
    have hstep : s.extend (v :: vs) = (s.append_tail v).2.extend vs := by
      rcases hpair : s.append_tail v with ⟨e, s2⟩
      rw [hpair] at h1
      have he : e = none := h1
      subst he
      show (match s.append_tail v with
            | (none, s') => s'.extend vs
            | (some e, s') => (some e, s')) = s2.extend vs
      rw [hpair]
    rw [hstep]
    obtain ⟨h4, c', h5, h6⟩ := ih h2
    refine ⟨h4, c', h5, ?_⟩
    rw [h6, h3]
    simp

/-- `Double(*values)` builds a well-formed list holding exactly `values`. -/
theorem ofList_chain (vs : List α) :
    (Double.ofList vs).1 = none ∧
    ∃ c', isChainD (α := α) (Double.ofList vs).2 c' ∧
      chainValuesF (Double.ofList vs).2.heap DNode.value c' = vs := by
  have hempty : isChainD (α := α) Double.empty [] := by
    refine ⟨rfl, rfl, rfl, ?_, List.nodup_nil⟩
    intro i hi
    exact absurd hi (List.not_mem_nil i)
  obtain ⟨h1, c', h2, h3⟩ := extend_chain vs hempty
  exact ⟨h1, c', h2, by simpa [chainValuesF] using h3⟩

/-- Splitting a well-formed chain around a member node `n`: the four
link segments surrounding `n`, and the characterisation of when `n` is
the head or the tail. -/
theorem isChainD_split {s : Double α} {c₁ c₂ : List Nat} {n : Nat}
    (hc : isChainD s (c₁ ++ n :: c₂)) :
    chainSeg s.heap DNode.next_node s.head c₁ (some n) ∧
    chainSeg s.heap DNode.next_node ((s.heap n).next_node) c₂ none ∧
    chainSeg s.heap DNode.last_node s.tail c₂.reverse (some n) ∧
    chainSeg s.heap DNode.last_node ((s.heap n).last_node) c₁.reverse none ∧
    (s.head = some n ↔ c₁ = []) ∧
    (s.tail = some n ↔ c₂ = []) := by
  obtain ⟨hfwd, hbwd, hlen, hbound, hnd⟩ := hc
  obtain ⟨hn1, hn2, hnd1, hnd2, hdisj⟩ := nodup_split hnd
  obtain ⟨hf1, hf2⟩ := chainSeg_split_cons hfwd
  have hrev : (c₁ ++ n :: c₂).reverse = c₂.reverse ++ n :: c₁.reverse := by simp
  rw [hrev] at hbwd
  obtain ⟨hb1, hb2⟩ := chainSeg_split_cons hbwd
  refine ⟨hf1, hf2, hb1, hb2, ?_, ?_⟩
  · constructor
    · intro hh
      cases hcc : c₁ with
      | nil => rfl
      | cons x rest =>
        rw [hcc] at hf1
        have hx : s.head = some x := hf1.1
        rw [hh] at hx
        have : n = x := by injection hx
        subst this
        exact absurd (hcc ▸ List.mem_cons_self n rest) hn1
    · intro hcc
      rw [hcc] at hf1
      exact hf1
  · constructor
    · intro ht
      cases hcc : c₂.reverse with
      | nil => simpa using congrArg List.reverse hcc
      | cons y rest =>
        rw [hcc] at hb1
        have hy : s.tail = some y := hb1.1
        rw [ht] at hy
        have : n = y := by injection hy
        subst this
        have : n ∈ c₂ := by
          have : n ∈ c₂.reverse := hcc ▸ List.mem_cons_self n rest
          simpa using this
        exact absurd this hn2
    · intro hcc
      rw [hcc] at hb1
      exact hb1

theorem insert_after_node_chain {s : Double α} {c₁ c₂ : List Nat} {n : Nat} (v : α)
    (hc : isChainD s (c₁ ++ n :: c₂)) :
    (s.insert_after_node n v).1 = none ∧
    isChainD (s.insert_after_node n v).2 (c₁ ++ n :: s.size :: c₂) ∧
    chainValuesF (s.insert_after_node n v).2.heap DNode.value (c₁ ++ n :: s.size :: c₂) =
      chainValuesF s.heap DNode.value c₁ ++
        (s.heap n).value :: v :: chainValuesF s.heap DNode.value c₂ := by
  obtain ⟨hf1, hf2, hb1, hb2, hheadiff, htailiff⟩ := isChainD_split hc
  obtain ⟨hfwd, hbwd, hlen, hbound, hnd⟩ := hc
  obtain ⟨hn1, hn2, hnd1, hnd2, hdisj⟩ := nodup_split hnd
  set nid := s.size with hnid
  have hnb : n < nid := hbound n (by simp)
  have hfresh : ∀ x ∈ c₁ ++ n :: c₂, x ≠ nid := by
    intro x hx
    have := hbound x hx
    omega
  cases hc2 : c₂ with
  | nil =>
    subst hc2
    have htail : s.tail = some n := htailiff.mpr rfl
    have hnextn : (s.heap n).next_node = none := hf2
    set h0 : Nat → DNode α := Function.update s.heap nid ⟨v, none, some n⟩ with hh0
    have hstep : s.insert_after_node n v =
        (none, { heap := updNextD h0 n (some nid), size := nid + 1, head := s.head,
                 tail := some nid, len := s.len + 1 }) := by
      simp [Double.insert_after_node, htail, hh0, hnextn]
    rw [hstep]
    set h1 : Nat → DNode α := updNextD h0 n (some nid) with hh1
    have hread0 : ∀ x, x ≠ nid → h0 x = s.heap x := by
      intro x hx
      rw [hh0, Function.update_noteq hx]
    have hreadn : h1 n = { s.heap n with next_node := some nid } := by
      rw [hh1, updNextD, Function.update_same, hread0 n (by omega)]
    have hreadnid : h1 nid = ⟨v, none, some n⟩ := by
      rw [hh1, updNextD, Function.update_noteq (by omega : nid ≠ n), hh0,
        Function.update_same]
    have hread1 : ∀ x ∈ c₁, h1 x = s.heap x := by
      intro x hx
      have hx1 : x ≠ nid := hfresh x (by simp [hx])
      have hx2 : x ≠ n := fun hxn => hn1 (hxn ▸ hx)
      rw [hh1, updNextD, Function.update_noteq hx2, hread0 x hx1]
    refine ⟨rfl, ⟨?_, ?_, ?_, ?_, ?_⟩, ?_⟩
    · show chainSeg h1 DNode.next_node s.head (c₁ ++ n :: [nid]) none
      refine chainSeg_append_cons ?_ ?_
      · exact chainSeg_congr (fun i hi => by rw [hread1 i hi]) hf1
      · rw [hreadn]
        exact ⟨rfl, show (h1 nid).next_node = none by rw [hreadnid]⟩
    · show chainSeg h1 DNode.last_node (some nid) ((c₁ ++ n :: [nid]).reverse) none
      have hassoc : (c₁ ++ n :: [nid]).reverse = nid :: n :: c₁.reverse := by simp
      rw [hassoc]
      refine ⟨rfl, ?_, ?_⟩
      · rw [hreadnid]
      · rw [hreadn]
        show chainSeg h1 DNode.last_node ((s.heap n).last_node) c₁.reverse none
        refine chainSeg_congr (fun i hi => ?_) hb2
        rw [hread1 i (by simpa using hi)]
    · show s.len + 1 = ((c₁ ++ n :: [nid]).length : Int)
      rw [hlen]
      simp only [List.length_append, List.length_cons, List.length_nil]
      push_cast
      omega
    · intro i hi
      show i < nid + 1
      simp only [List.mem_append, List.mem_cons, List.mem_singleton,
        List.mem_nil_iff, or_false] at hi
      rcases hi with hi | rfl | rfl
      · exact Nat.lt_succ_of_lt (hbound i (by simp [hi]))
      · omega
      · omega
    · have hperm : List.Perm (c₁ ++ n :: [nid]) (nid :: (c₁ ++ [n])) := by
        have hmid : ((c₁ ++ [n]) ++ nid :: []).Perm (nid :: ((c₁ ++ [n]) ++ [])) :=
          List.perm_middle
        simpa using hmid
      rw [hperm.nodup_iff, List.nodup_cons]
      refine ⟨?_, by simpa using hnd⟩
      intro hm
      exact absurd rfl (hfresh nid (by simpa using hm))
    · show chainValuesF h1 DNode.value (c₁ ++ n :: [nid]) =
        chainValuesF s.heap DNode.value c₁ ++
          (s.heap n).value :: v :: chainValuesF s.heap DNode.value []
      rw [chainValuesF, chainValuesF, chainValuesF, List.map_append]
      congr 1
      · exact List.map_congr_left (fun i hi => by rw [hread1 i hi])
      · simp [hreadn, hreadnid]
  | cons q c₂' =>
    subst hc2
    have htailne : ¬ s.tail = some n := fun h => by simpa using htailiff.mp h
    have hnextn : (s.heap n).next_node = some q := hf2.1
    have hf2' : chainSeg s.heap DNode.next_node ((s.heap q).next_node) c₂' none := hf2.2
    have hnq : n ≠ q := fun h => hn2 (h ▸ List.mem_cons_self q c₂')
    have hqb : q < nid := hbound q (by simp)
    have hqc2 : q ∉ c₂' := (List.nodup_cons.mp hnd2).1
    set h0 : Nat → DNode α := Function.update s.heap nid ⟨v, some q, some n⟩ with hh0
    have hstep : s.insert_after_node n v =
        (none, { heap := updNextD (updLastD h0 q (some nid)) n (some nid),
                 size := nid + 1, head := s.head, tail := s.tail, len := s.len + 1 }) := by
      simp [Double.insert_after_node, htailne, hnextn, hh0]
    rw [hstep]
    set h2 : Nat → DNode α := updNextD (updLastD h0 q (some nid)) n (some nid) with hh2
    have hread0 : ∀ x, x ≠ nid → h0 x = s.heap x := by
      intro x hx
      rw [hh0, Function.update_noteq hx]
    have hreadn : h2 n = { s.heap n with next_node := some nid } := by
      rw [hh2, updNextD, Function.update_same, updLastD, Function.update_noteq hnq,
        hread0 n (by omega)]
    have hreadq : h2 q = { s.heap q with last_node := some nid } := by
      rw [hh2, updNextD, Function.update_noteq hnq.symm, updLastD, Function.update_same,
        hread0 q (by omega)]
    have hreadnid : h2 nid = ⟨v, some q, some n⟩ := by
      rw [hh2, updNextD, Function.update_noteq (by omega : nid ≠ n), updLastD,
        Function.update_noteq (by omega : nid ≠ q), hh0, Function.update_same]
    have hreadother : ∀ x, x ≠ nid → x ≠ n → x ≠ q → h2 x = s.heap x := by
      intro x hx1 hx2 hx3
      rw [hh2, updNextD, Function.update_noteq hx2, updLastD, Function.update_noteq hx3,
        hread0 x hx1]
    have hread1 : ∀ x ∈ c₁, h2 x = s.heap x := by
      intro x hx
      refine hreadother x (hfresh x (by simp [hx])) (fun hxn => hn1 (hxn ▸ hx))
        (fun hxq => hdisj x hx ?_)
      rw [hxq]
      exact List.mem_cons_self q c₂'
    have hread2 : ∀ x ∈ c₂', h2 x = s.heap x := by
      intro x hx
      exact hreadother x (hfresh x (by simp [hx]))
        (fun hxn => hn2 (hxn ▸ List.mem_cons_of_mem q hx)) (fun hxq => hqc2 (hxq ▸ hx))
    refine ⟨rfl, ⟨?_, ?_, ?_, ?_, ?_⟩, ?_⟩
    · show chainSeg h2 DNode.next_node s.head (c₁ ++ n :: nid :: q :: c₂') none
      refine chainSeg_append_cons ?_ ?_
      · exact chainSeg_congr (fun i hi => by rw [hread1 i hi]) hf1
      · rw [hreadn]
        show chainSeg h2 DNode.next_node (some nid) (nid :: q :: c₂') none
        refine ⟨rfl, ?_, ?_⟩
        · rw [hreadnid]
        · rw [hreadq]
          show chainSeg h2 DNode.next_node ((s.heap q).next_node) c₂' none
          exact chainSeg_congr (fun i hi => by rw [hread2 i hi]) hf2'
    · show chainSeg h2 DNode.last_node s.tail ((c₁ ++ n :: nid :: q :: c₂').reverse) none
      have hassoc : (c₁ ++ n :: nid :: q :: c₂').reverse =
          c₂'.reverse ++ q :: nid :: n :: c₁.reverse := by simp
      rw [hassoc]
      have hrev2 : (q :: c₂').reverse = c₂'.reverse ++ q :: [] := by simp
      rw [hrev2] at hb1
      obtain ⟨hb1a, hb1b⟩ := chainSeg_split_cons hb1
      refine chainSeg_append_cons ?_ ?_
      · refine chainSeg_congr (fun i hi => ?_) hb1a
        rw [hread2 i (by simpa using hi)]
      · rw [hreadq]
        show chainSeg h2 DNode.last_node (some nid) (nid :: n :: c₁.reverse) none
        refine ⟨rfl, ?_, ?_⟩
        · rw [hreadnid]
        · rw [hreadn]
          show chainSeg h2 DNode.last_node ((s.heap n).last_node) c₁.reverse none
          refine chainSeg_congr (fun i hi => ?_) hb2
          rw [hread1 i (by simpa using hi)]
    · show s.len + 1 = ((c₁ ++ n :: nid :: q :: c₂').length : Int)
      rw [hlen]
      simp only [List.length_append, List.length_cons, List.length_nil]
      push_cast
      omega
    · intro i hi
      show i < nid + 1
      simp only [List.mem_append, List.mem_cons] at hi
      rcases hi with hi | rfl | rfl | rfl | hi
      · exact Nat.lt_succ_of_lt (hbound i (by simp [hi]))
      · omega
      · omega
      · omega
      · exact Nat.lt_succ_of_lt (hbound i (by simp [hi]))
    · have hperm : List.Perm (c₁ ++ n :: nid :: q :: c₂') (nid :: (c₁ ++ n :: q :: c₂')) := by
        have hmid : ((c₁ ++ [n]) ++ nid :: (q :: c₂')).Perm (nid :: ((c₁ ++ [n]) ++ q :: c₂')) :=
          List.perm_middle
        simpa using hmid
      rw [hperm.nodup_iff, List.nodup_cons]
      refine ⟨?_, hnd⟩
      intro hm
      exact absurd rfl (hfresh nid hm)
    · show chainValuesF h2 DNode.value (c₁ ++ n :: nid :: q :: c₂') =
        chainValuesF s.heap DNode.value c₁ ++
          (s.heap n).value :: v :: chainValuesF s.heap DNode.value (q :: c₂')
      rw [chainValuesF, chainValuesF, chainValuesF, List.map_append]
      congr 1
      · exact List.map_congr_left (fun i hi => by rw [hread1 i hi])
      · simp only [List.map_cons]
        rw [hreadn, hreadnid, hreadq]
        refine congrArg₂ _ rfl (congrArg₂ _ rfl (congrArg₂ _ rfl ?_))
        exact List.map_congr_left (fun i hi => by rw [hread2 i hi])

theorem insert_before_node_chain {s : Double α} {c₁ c₂ : List Nat} {n : Nat} (v : α)
    (hc : isChainD s (c₁ ++ n :: c₂)) :
    (s.insert_before_node n v).1 = none ∧
    isChainD (s.insert_before_node n v).2 (c₁ ++ s.size :: n :: c₂) ∧
    chainValuesF (s.insert_before_node n v).2.heap DNode.value (c₁ ++ s.size :: n :: c₂) =
      chainValuesF s.heap DNode.value c₁ ++
        v :: (s.heap n).value :: chainValuesF s.heap DNode.value c₂ := by
  obtain ⟨hf1, hf2, hb1, hb2, hheadiff, htailiff⟩ := isChainD_split hc
  obtain ⟨hfwd, hbwd, hlen, hbound, hnd⟩ := hc
  obtain ⟨hn1, hn2, hnd1, hnd2, hdisj⟩ := nodup_split hnd
  set nid := s.size with hnid
  have hnb : n < nid := hbound n (by simp)
  have hfresh : ∀ x ∈ c₁ ++ n :: c₂, x ≠ nid := by
    intro x hx
    have := hbound x hx
    omega
  have hperm : List.Perm (c₁ ++ nid :: n :: c₂) (nid :: (c₁ ++ n :: c₂)) :=
    List.perm_middle
  have hnodup : (c₁ ++ nid :: n :: c₂).Nodup := by
    rw [hperm.nodup_iff, List.nodup_cons]
    exact ⟨fun hm => absurd rfl (hfresh nid hm), hnd⟩
  have hlen' : s.len + 1 = ((c₁ ++ nid :: n :: c₂).length : Int) := by
    rw [hlen]
    simp only [List.length_append, List.length_cons, List.length_nil]
    push_cast
    omega
  have hbound' : ∀ i ∈ c₁ ++ nid :: n :: c₂, i < nid + 1 := by
    intro i hi
    simp only [List.mem_append, List.mem_cons] at hi
    rcases hi with hi | rfl | rfl | hi
    · exact Nat.lt_succ_of_lt (hbound i (by simp [hi]))
    · omega
    · omega
    · exact Nat.lt_succ_of_lt (hbound i (by simp [hi]))
  rcases List.eq_nil_or_concat c₁ with rfl | ⟨c₁', p, hcp⟩
  · have hhead : s.head = some n := hheadiff.mpr rfl
    have hlastn : (s.heap n).last_node = none := hb2
    set h0 : Nat → DNode α := Function.update s.heap nid ⟨v, some n, none⟩ with hh0
    have hstep : s.insert_before_node n v =
        (none, { heap := updLastD h0 n (some nid), size := nid + 1, head := some nid,
                 tail := s.tail, len := s.len + 1 }) := by
      simp [Double.insert_before_node, hhead, hh0, hlastn]
    rw [hstep]
    set h1 : Nat → DNode α := updLastD h0 n (some nid) with hh1
    have hread0 : ∀ x, x ≠ nid → h0 x = s.heap x := by
      intro x hx
      rw [hh0, Function.update_noteq hx]
    have hreadn : h1 n = { s.heap n with last_node := some nid } := by
      rw [hh1, updLastD, Function.update_same, hread0 n (by omega)]
    have hreadnid : h1 nid = ⟨v, some n, none⟩ := by
      rw [hh1, updLastD, Function.update_noteq (by omega : nid ≠ n), hh0,
        Function.update_same]
    have hread2 : ∀ x ∈ c₂, h1 x = s.heap x := by
      intro x hx
      have hx1 : x ≠ nid := hfresh x (by simp [hx])
      have hx2 : x ≠ n := fun hxn => hn2 (hxn ▸ hx)
      rw [hh1, updLastD, Function.update_noteq hx2, hread0 x hx1]
    refine ⟨rfl, ⟨?_, ?_, ?_, ?_, ?_⟩, ?_⟩
    · show chainSeg h1 DNode.next_node (some nid) (nid :: n :: c₂) none
      refine ⟨rfl, ?_, ?_⟩
      · rw [hreadnid]
      · rw [hreadn]
        show chainSeg h1 DNode.next_node ((s.heap n).next_node) c₂ none
        exact chainSeg_congr (fun i hi => by rw [hread2 i hi]) hf2
    · show chainSeg h1 DNode.last_node s.tail ((nid :: n :: c₂).reverse) none
      have hassoc : ((nid :: n :: c₂) : List Nat).reverse = c₂.reverse ++ n :: nid :: [] := by
        simp
      rw [hassoc]
      refine chainSeg_append_cons ?_ ?_
      · refine chainSeg_congr (fun i hi => ?_) hb1
        rw [hread2 i (by simpa using hi)]
      · rw [hreadn]
        show chainSeg h1 DNode.last_node (some nid) (nid :: []) none
        exact ⟨rfl, show (h1 nid).last_node = none by rw [hreadnid]⟩
    · exact hlen'
    · exact hbound'
    · exact hnodup
    · show chainValuesF h1 DNode.value (nid :: n :: c₂) =
        chainValuesF s.heap DNode.value [] ++
          v :: (s.heap n).value :: chainValuesF s.heap DNode.value c₂
      rw [chainValuesF, chainValuesF, chainValuesF]
      simp only [List.map_cons, List.map_nil, List.nil_append]
      rw [hreadnid, hreadn]
      refine congrArg₂ _ rfl (congrArg₂ _ rfl ?_)
      exact List.map_congr_left (fun i hi => by rw [hread2 i hi])
  · rw [List.concat_eq_append] at hcp
    subst hcp
    have hheadne : ¬ s.head = some n := fun h => by simpa using hheadiff.mp h
    have hrevc1 : (c₁' ++ [p]).reverse = p :: c₁'.reverse := by simp
    rw [hrevc1] at hb2
    have hlastn : (s.heap n).last_node = some p := hb2.1
    have hb2' : chainSeg s.heap DNode.last_node ((s.heap p).last_node) c₁'.reverse none :=
      hb2.2
    obtain ⟨hf1a, hf1b⟩ := chainSeg_split_cons hf1
    have hnextp : (s.heap p).next_node = some n := hf1b
    have hpn : p ≠ n := fun h => hn1 (h ▸ (by simp : p ∈ c₁' ++ [p]))
    have hpb : p < nid := hbound p (by simp)
    have hpc1 : p ∉ c₁' := (nodup_split hnd1).1
    have hpc2 : p ∉ c₂ := hdisj p (by simp)
    set h0 : Nat → DNode α := Function.update s.heap nid ⟨v, some n, some p⟩ with hh0
    have hstep : s.insert_before_node n v =
        (none, { heap := updLastD (updNextD h0 p (some nid)) n (some nid),
                 size := nid + 1, head := s.head, tail := s.tail, len := s.len + 1 }) := by
      simp [Double.insert_before_node, hheadne, hlastn, hh0]
    rw [hstep]
    set h2 : Nat → DNode α := updLastD (updNextD h0 p (some nid)) n (some nid) with hh2
    have hread0 : ∀ x, x ≠ nid → h0 x = s.heap x := by
      intro x hx
      rw [hh0, Function.update_noteq hx]
    have hreadn : h2 n = { s.heap n with last_node := some nid } := by
      rw [hh2, updLastD, Function.update_same, updNextD, Function.update_noteq hpn.symm,
        hread0 n (by omega)]
    have hreadp : h2 p = { s.heap p with next_node := some nid } := by
      rw [hh2, updLastD, Function.update_noteq hpn, updNextD, Function.update_same,
        hread0 p (by omega)]
    have hreadnid : h2 nid = ⟨v, some n, some p⟩ := by
      rw [hh2, updLastD, Function.update_noteq (by omega : nid ≠ n), updNextD,
        Function.update_noteq (by omega : nid ≠ p), hh0, Function.update_same]
    have hreadother : ∀ x, x ≠ nid → x ≠ n → x ≠ p → h2 x = s.heap x := by
      intro x hx1 hx2 hx3
      rw [hh2, updLastD, Function.update_noteq hx2, updNextD, Function.update_noteq hx3,
        hread0 x hx1]
    have hread1 : ∀ x ∈ c₁', h2 x = s.heap x := by
      intro x hx
      exact hreadother x (hfresh x (by simp [hx]))
        (fun hxn => hn1 (hxn ▸ (by simp [hx] : x ∈ c₁' ++ [p]))) (fun hxp => hpc1 (hxp ▸ hx))
    have hread2 : ∀ x ∈ c₂, h2 x = s.heap x := by
      intro x hx
      exact hreadother x (hfresh x (by simp [hx])) (fun hxn => hn2 (hxn ▸ hx))
        (fun hxp => hpc2 (hxp ▸ hx))
    refine ⟨rfl, ⟨?_, ?_, ?_, ?_, ?_⟩, ?_⟩
    · show chainSeg h2 DNode.next_node s.head ((c₁' ++ [p]) ++ nid :: n :: c₂) none
      have hassoc : ((c₁' ++ [p]) ++ nid :: n :: c₂ : List Nat) =
          c₁' ++ p :: nid :: n :: c₂ := by simp
      rw [hassoc]
      refine chainSeg_append_cons ?_ ?_
      · exact chainSeg_congr (fun i hi => by rw [hread1 i hi]) hf1a
      · rw [hreadp]
        show chainSeg h2 DNode.next_node (some nid) (nid :: n :: c₂) none
        refine ⟨rfl, ?_, ?_⟩
        · rw [hreadnid]
        · rw [hreadn]
          show chainSeg h2 DNode.next_node ((s.heap n).next_node) c₂ none
          exact chainSeg_congr (fun i hi => by rw [hread2 i hi]) hf2
    · show chainSeg h2 DNode.last_node s.tail (((c₁' ++ [p]) ++ nid :: n :: c₂).reverse) none
      have hassoc : (((c₁' ++ [p]) ++ nid :: n :: c₂ : List Nat)).reverse =
          c₂.reverse ++ n :: nid :: p :: c₁'.reverse := by simp
      rw [hassoc]
      refine chainSeg_append_cons ?_ ?_
      · refine chainSeg_congr (fun i hi => ?_) hb1
        rw [hread2 i (by simpa using hi)]
      · rw [hreadn]
        show chainSeg h2 DNode.last_node (some nid) (nid :: p :: c₁'.reverse) none
        refine ⟨rfl, ?_, ?_⟩
        · rw [hreadnid]
        · rw [hreadp]
          show chainSeg h2 DNode.last_node ((s.heap p).last_node) c₁'.reverse none
          refine chainSeg_congr (fun i hi => ?_) hb2'
          rw [hread1 i (by simpa using hi)]
    · exact hlen'
    · exact hbound'
    · exact hnodup
    · show chainValuesF h2 DNode.value ((c₁' ++ [p]) ++ nid :: n :: c₂) =
        chainValuesF s.heap DNode.value (c₁' ++ [p]) ++
          v :: (s.heap n).value :: chainValuesF s.heap DNode.value c₂
      rw [chainValuesF, chainValuesF, chainValuesF, List.map_append]
      congr 1
      · rw [List.map_append, List.map_append]
        congr 1
        · exact List.map_congr_left (fun i hi => by rw [hread1 i hi])
        · simp [hreadp]
      · simp only [List.map_cons]
        rw [hreadnid, hreadn]
        refine congrArg₂ _ rfl (congrArg₂ _ rfl ?_)
        exact List.map_congr_left (fun i hi => by rw [hread2 i hi])

theorem remove_node_chain {s : Double α} {c₁ c₂ : List Nat} {n : Nat}
    (hc : isChainD s (c₁ ++ n :: c₂)) :
    (s.remove_node n).1 = none ∧
    isChainD (s.remove_node n).2 (c₁ ++ c₂) ∧
    chainValuesF (s.remove_node n).2.heap DNode.value (c₁ ++ c₂) =
      chainValuesF s.heap DNode.value c₁ ++ chainValuesF s.heap DNode.value c₂ := by
  obtain ⟨hf1, hf2, hb1, hb2, hheadiff, htailiff⟩ := isChainD_split hc
  obtain ⟨hfwd, hbwd, hlen, hbound, hnd⟩ := hc
  obtain ⟨hn1, hn2, hnd1, hnd2, hdisj⟩ := nodup_split hnd
  have hlen' : s.len - 1 = ((c₁ ++ c₂).length : Int) := by
    rw [hlen]
    simp only [List.length_append, List.length_cons]
    push_cast
    omega
  have hbound' : ∀ i ∈ c₁ ++ c₂, i < s.size := by
    intro i hi
    refine hbound i ?_
    rcases List.mem_append.mp hi with hi | hi
    · exact List.mem_append.mpr (Or.inl hi)
    · exact List.mem_append.mpr (Or.inr (List.mem_cons_of_mem n hi))
  have hnodup' : (c₁ ++ c₂).Nodup := by
    rw [List.nodup_append]
    exact ⟨hnd1, hnd2, hdisj⟩
  rcases List.eq_nil_or_concat c₁ with rfl | ⟨c₁', p, hcp⟩
  · have hhead : s.head = some n := hheadiff.mpr rfl
    have hlastn : (s.heap n).last_node = none := hb2
    cases hcc2 : c₂ with
    | nil =>
      subst hcc2
      have htail : s.tail = some n := htailiff.mpr rfl
      have hnextn : (s.heap n).next_node = none := hf2
      have hstep : s.remove_node n =
          (none, { heap := s.heap, size := s.size, head := none, tail := none,
                   len := s.len - 1 }) := by
        simp [Double.remove_node, hhead, htail, hnextn, hlastn]
      rw [hstep]
      exact ⟨rfl, ⟨rfl, rfl, hlen', hbound', hnodup'⟩, rfl⟩
    | cons q c₂' =>
      subst hcc2
      have htailne : ¬ s.tail = some n := fun h => by simpa using htailiff.mp h
      have hnextn : (s.heap n).next_node = some q := hf2.1
      have hf2' : chainSeg s.heap DNode.next_node ((s.heap q).next_node) c₂' none := hf2.2
      have hnq : n ≠ q := fun h => hn2 (h ▸ List.mem_cons_self q c₂')
      have hqc2 : q ∉ c₂' := (List.nodup_cons.mp hnd2).1
      have hstep : s.remove_node n =
          (none, { heap := updLastD s.heap q none, size := s.size, head := some q,
                   tail := s.tail, len := s.len - 1 }) := by
        simp [Double.remove_node, hhead, htailne, hnextn, hlastn]
      rw [hstep]
      set h2 : Nat → DNode α := updLastD s.heap q none with hh2
      have hreadq : h2 q = { s.heap q with last_node := none } := by
        rw [hh2, updLastD, Function.update_same]
      have hreadother : ∀ x, x ≠ q → h2 x = s.heap x := by
        intro x hx
        rw [hh2, updLastD, Function.update_noteq hx]
      refine ⟨rfl, ⟨?_, ?_, hlen', hbound', hnodup'⟩, ?_⟩
      · show chainSeg h2 DNode.next_node (some q) ([] ++ q :: c₂') none
        refine ⟨rfl, ?_⟩
        show chainSeg h2 DNode.next_node ((h2 q).next_node) c₂' none
        rw [hreadq]
        show chainSeg h2 DNode.next_node ((s.heap q).next_node) c₂' none
        refine chainSeg_congr (fun i hi => ?_) hf2'
        rw [hh2]
        simp
      · show chainSeg h2 DNode.last_node s.tail ((([] : List Nat) ++ q :: c₂').reverse) none
        have hassoc : ((([] : List Nat) ++ q :: c₂')).reverse = c₂'.reverse ++ q :: [] := by
          simp
        rw [hassoc]
        have hrev2 : (q :: c₂').reverse = c₂'.reverse ++ q :: [] := by simp
        rw [hrev2] at hb1
        obtain ⟨hb1a, hb1b⟩ := chainSeg_split_cons hb1
        refine chainSeg_append_cons ?_ ?_
        · refine chainSeg_congr (fun i hi => ?_) hb1a
          have hi' : i ∈ c₂' := by simpa using hi
          rw [hreadother i (fun h => hqc2 (h ▸ hi'))]
        · show (h2 q).last_node = none
          rw [hreadq]
      · show chainValuesF h2 DNode.value ([] ++ q :: c₂') =
          chainValuesF s.heap DNode.value [] ++ chainValuesF s.heap DNode.value (q :: c₂')
        simp only [chainValuesF, List.nil_append, List.map_nil]
        refine List.map_congr_left ?_
        intro i hi
        rw [hh2]
        simp
  · rw [List.concat_eq_append] at hcp
    subst hcp
    have hheadne : ¬ s.head = some n := fun h => by simpa using hheadiff.mp h
    have hrevc1 : (c₁' ++ [p]).reverse = p :: c₁'.reverse := by simp
    rw [hrevc1] at hb2
    have hlastn : (s.heap n).last_node = some p := hb2.1
    have hb2' : chainSeg s.heap DNode.last_node ((s.heap p).last_node) c₁'.reverse none :=
      hb2.2
    obtain ⟨hf1a, hf1b⟩ := chainSeg_split_cons hf1
    have hnextp : (s.heap p).next_node = some n := hf1b
    have hpn : p ≠ n := fun h => hn1 (h ▸ (by simp : p ∈ c₁' ++ [p]))
    have hnp : n ≠ p := hpn.symm
    have hpc1 : p ∉ c₁' := (nodup_split hnd1).1
    have hpc2 : p ∉ c₂ := hdisj p (by simp)
    cases hcc2 : c₂ with
    | nil =>
      subst hcc2
      have htail : s.tail = some n := htailiff.mpr rfl
      have hnextn : (s.heap n).next_node = none := hf2
      have hxl : (updNextD s.heap p none n).last_node = some p := by
        rw [updNextD_last]
        exact hlastn
      have hstep : s.remove_node n =
          (none, { heap := updNextD s.heap p none, size := s.size, head := s.head,
                   tail := some p, len := s.len - 1 }) := by
        simp [Double.remove_node, hheadne, htail, hnextn, hlastn, hxl]
      rw [hstep]
      set h1 : Nat → DNode α := updNextD s.heap p none with hh1
      have hreadp : h1 p = { s.heap p with next_node := none } := by
        rw [hh1, updNextD, Function.update_same]
      have hreadother : ∀ x, x ≠ p → h1 x = s.heap x := by
        intro x hx
        rw [hh1, updNextD, Function.update_noteq hx]
      refine ⟨rfl, ⟨?_, ?_, hlen', hbound', hnodup'⟩, ?_⟩
      · show chainSeg h1 DNode.next_node s.head ((c₁' ++ [p]) ++ []) none
        have hassoc : ((c₁' ++ [p]) ++ [] : List Nat) = c₁' ++ p :: [] := by simp
        rw [hassoc]
        refine chainSeg_append_cons ?_ ?_
        · refine chainSeg_congr (fun i hi => ?_) hf1a
          rw [hreadother i (fun hip => hpc1 (hip ▸ hi))]
        · show (h1 p).next_node = none
          rw [hreadp]
      · show chainSeg h1 DNode.last_node (some p) (((c₁' ++ [p]) ++ ([] : List Nat)).reverse)
          none
        have hassoc : (((c₁' ++ [p]) ++ ([] : List Nat))).reverse = p :: c₁'.reverse := by
          simp
        rw [hassoc]
        refine ⟨rfl, ?_⟩
        show chainSeg h1 DNode.last_node ((h1 p).last_node) c₁'.reverse none
        rw [hreadp]
        show chainSeg h1 DNode.last_node ((s.heap p).last_node) c₁'.reverse none
        refine chainSeg_congr (fun i hi => ?_) hb2'
        have hi' : i ∈ c₁' := by simpa using hi
        rw [hreadother i (fun hip => hpc1 (hip ▸ hi'))]
      · show chainValuesF h1 DNode.value ((c₁' ++ [p]) ++ []) =
          chainValuesF s.heap DNode.value (c₁' ++ [p]) ++ chainValuesF s.heap DNode.value []
        simp only [chainValuesF, List.append_nil, List.map_nil]
        refine List.map_congr_left ?_
        intro i hi
        rw [hh1]
        simp
    | cons q c₂' =>
      subst hcc2
      have htailne : ¬ s.tail = some n := fun h => by simpa using htailiff.mp h
      have hnextn : (s.heap n).next_node = some q := hf2.1
      have hf2' : chainSeg s.heap DNode.next_node ((s.heap q).next_node) c₂' none := hf2.2
      have hnq : n ≠ q := fun h => hn2 (h ▸ List.mem_cons_self q c₂')
      have hqc2 : q ∉ c₂' := (List.nodup_cons.mp hnd2).1
      have hpq : p ≠ q := fun h => hpc2 (h ▸ List.mem_cons_self q c₂')
      have hqc1 : q ∉ c₁' := fun hq => hdisj q (by simp [hq]) (List.mem_cons_self q c₂')
      have hxn : (updNextD s.heap p (some q) n).next_node = some q := by
        rw [updNextD_next_of_ne s.heap p (some q) hnp]
        exact hnextn
      have hxl : (updNextD s.heap p (some q) n).last_node = some p := by
        rw [updNextD_last]
        exact hlastn
      have hstep : s.remove_node n =
          (none, { heap := updLastD (updNextD s.heap p (some q)) q (some p),
                   size := s.size, head := s.head, tail := s.tail,
                   len := s.len - 1 }) := by
        simp [Double.remove_node, hheadne, htailne, hnextn, hlastn, hxn, hxl]
      rw [hstep]
      set h2 : Nat → DNode α := updLastD (updNextD s.heap p (some q)) q (some p) with hh2
      have hreadp : h2 p = { s.heap p with next_node := some q } := by
        rw [hh2, updLastD, Function.update_noteq hpq, updNextD, Function.update_same]
      have hreadq : h2 q = { s.heap q with last_node := some p } := by
        rw [hh2, updLastD, Function.update_same, updNextD, Function.update_noteq hpq.symm]
      have hreadother : ∀ x, x ≠ p → x ≠ q → h2 x = s.heap x := by
        intro x hx1 hx2
        rw [hh2, updLastD, Function.update_noteq hx2, updNextD, Function.update_noteq hx1]
      have hread1 : ∀ x ∈ c₁', h2 x = s.heap x := by
        intro x hx
        exact hreadother x (fun hxp => hpc1 (hxp ▸ hx)) (fun hxq => hqc1 (hxq ▸ hx))
      have hread2 : ∀ x ∈ c₂', h2 x = s.heap x := by
        intro x hx
        refine hreadother x (fun hxp => hpc2 ?_) (fun hxq => hqc2 (hxq ▸ hx))
        rw [hxp] at hx
        exact List.mem_cons_of_mem q hx
      refine ⟨rfl, ⟨?_, ?_, hlen', hbound', hnodup'⟩, ?_⟩
      · show chainSeg h2 DNode.next_node s.head ((c₁' ++ [p]) ++ q :: c₂') none
        have hassoc : ((c₁' ++ [p]) ++ q :: c₂' : List Nat) = c₁' ++ p :: q :: c₂' := by
          simp
        rw [hassoc]
        refine chainSeg_append_cons ?_ ?_
        · exact chainSeg_congr (fun i hi => by rw [hread1 i hi]) hf1a
        · rw [hreadp]
          show chainSeg h2 DNode.next_node (some q) (q :: c₂') none
          refine ⟨rfl, ?_⟩
          show chainSeg h2 DNode.next_node ((h2 q).next_node) c₂' none
          rw [hreadq]
          show chainSeg h2 DNode.next_node ((s.heap q).next_node) c₂' none
          exact chainSeg_congr (fun i hi => by rw [hread2 i hi]) hf2'
      · show chainSeg h2 DNode.last_node s.tail (((c₁' ++ [p]) ++ q :: c₂').reverse) none
        have hassoc : (((c₁' ++ [p]) ++ q :: c₂' : List Nat)).reverse =
            c₂'.reverse ++ q :: p :: c₁'.reverse := by simp
        rw [hassoc]
        have hrev2 : (q :: c₂').reverse = c₂'.reverse ++ q :: [] := by simp
        rw [hrev2] at hb1
        obtain ⟨hb1a, hb1b⟩ := chainSeg_split_cons hb1
        refine chainSeg_append_cons ?_ ?_
        · refine chainSeg_congr (fun i hi => ?_) hb1a
          rw [hread2 i (by simpa using hi)]
        · rw [hreadq]
          show chainSeg h2 DNode.last_node (some p) (p :: c₁'.reverse) none
          refine ⟨rfl, ?_⟩
          show chainSeg h2 DNode.last_node ((h2 p).last_node) c₁'.reverse none
          rw [hreadp]
          show chainSeg h2 DNode.last_node ((s.heap p).last_node) c₁'.reverse none
          refine chainSeg_congr (fun i hi => ?_) hb2'
          rw [hread1 i (by simpa using hi)]
      · have hval : ∀ x, (h2 x).value = (s.heap x).value := by
          intro x
          rw [hh2]
          simp
        show chainValuesF h2 DNode.value ((c₁' ++ [p]) ++ q :: c₂') =
          chainValuesF s.heap DNode.value (c₁' ++ [p]) ++
            chainValuesF s.heap DNode.value (q :: c₂')
        rw [chainValuesF, chainValuesF, chainValuesF,
          List.map_congr_left (fun i _ => hval i), List.map_append]

theorem chain_length_le {s : Double α} {c : List Nat} (hc : isChainD s c) :
    c.length ≤ s.size :=
  nodup_length_le hc.2.2.2.2 hc.2.2.2.1

theorem dtraverse_eq {s : Double α} {c : List Nat} (hc : isChainD s c) :
    dtraverse s = c :=
  traverseF_eq hc.1 (chain_length_le hc)

theorem iter_reverse_eq {s : Double α} {c : List Nat} (hc : isChainD s c) :
    iter_reverse s = c.reverse :=
  traverseF_eq hc.2.1 (by simpa using chain_length_le hc)

theorem iter_values_eq {s : Double α} {c : List Nat} (hc : isChainD s c) :
    iter_values s = chainValuesF s.heap DNode.value c := by
  rw [iter_values, dtraverse_eq hc, chainValuesF]

theorem reverse_values_eq {s : Double α} {c : List Nat} (hc : isChainD s c) :
    reverse_values s = (chainValuesF s.heap DNode.value c).reverse := by
  rw [reverse_values, iter_reverse_eq hc, chainValuesF, List.map_reverse]

theorem tail_eq {s : Double α} {c : List Nat} (hc : isChainD s c) :
    s.tail = c.getLast? := by
  rcases List.eq_nil_or_concat c with rfl | ⟨c', t, hct⟩
  · exact hc.2.1
  · rw [List.concat_eq_append] at hct
    subst hct
    have hb := hc.2.1
    have hrev : (c' ++ [t]).reverse = t :: c'.reverse := by simp
    rw [hrev] at hb
    rw [hb.1]
    simp

theorem head_eq {s : Double α} {c : List Nat} (hc : isChainD s c) :
    s.head = c.head? := by
  cases hcc : c with
  | nil =>
    subst hcc
    exact hc.1
  | cons x rest =>
    subst hcc
    exact hc.1.1

theorem mem_of_tail_some {s : Double α} {c : List Nat} {t : Nat}
    (hc : isChainD s c) (ht : s.tail = some t) : t ∈ c := by
  have htl := tail_eq hc
  rcases List.eq_nil_or_concat c with rfl | ⟨c', t', hct⟩
  · rw [ht] at htl
    exact absurd htl (by simp)
  · rw [List.concat_eq_append] at hct
    subst hct
    rw [ht] at htl
    have : t = t' := by
      have h2 : (c' ++ [t']).getLast? = some t' := by simp
      rw [h2] at htl
      injection htl
    subst this
    simp

theorem getitem_mem {s : Double α} {c : List Nat} {idx : Idx} {n : Nat}
    (hc : isChainD s c) (h : s.getitem idx = .ok n) : n ∈ c := by
  cases idx with
  | slice => exact absurd h (by simp [Double.getitem])
  | int j =>
    rcases htt : s.tail with _ | t
    · simp only [Double.getitem, htt] at h
      split at h
      · exact absurd h (by simp)
      · rcases hnth : nthNodeF s.heap DNode.next_node s.size s.head j.toNat with _ | m
        · rw [hnth] at h
          exact absurd h (by simp)
        · rw [hnth] at h
          have hmn : m = n := by
            injection h
          subst hmn
          exact nthNodeF_mem hc.1 hnth
    · simp only [Double.getitem, htt] at h
      split at h
      · have hn : t = n := by
          injection h
        subst hn
        exact mem_of_tail_some hc htt
      · split at h
        · exact absurd h (by simp)
        · rcases hnth : nthNodeF s.heap DNode.next_node s.size s.head j.toNat with _ | m
          · rw [hnth] at h
            exact absurd h (by simp)
          · rw [hnth] at h
            have hmn : m = n := by
              injection h
            subst hmn
            exact nthNodeF_mem hc.1 hnth

theorem getitem_nonneg {s : Double α} {c : List Nat} {j : Int}
    (hc : isChainD s c) (hj : 0 ≤ j) (hlt : j.toNat < c.length) :
    s.getitem (.int j) = .ok (c.get ⟨j.toNat, hlt⟩) := by
  have hnth : nthNodeF s.heap DNode.next_node s.size s.head j.toNat =
      some (c.get ⟨j.toNat, hlt⟩) :=
    nthNodeF_eq hc.1 hlt (Nat.lt_of_lt_of_le hlt (chain_length_le hc))
  rcases htt : s.tail with _ | t
  · simp only [Double.getitem, htt]
    rw [if_neg (by omega), hnth]
  · simp only [Double.getitem, htt]
    rw [if_neg (by omega), if_neg (by omega), hnth]

theorem getitem_neg_one {s : Double α} {c : List Nat} {t : Nat}
    (hc : isChainD s c) (ht : s.tail = some t) :
    s.getitem (.int (-1)) = .ok t := by
  simp only [Double.getitem, ht]
  simp

/-- `__setitem__` never breaks well-formedness: on failure the state is
returned unchanged, on success only a `value` attribute changes. -/
theorem setitem_chain {s : Double α} {c : List Nat} (idx : Idx) (v : α)
    (hc : isChainD s c) : isChainD (s.setitem idx v).2 c := by
  rw [Double.setitem]
  rcases hget : s.getitem idx with e | n
  · exact hc
  · obtain ⟨hfwd, hbwd, hlen, hbound, hnd⟩ := hc
    refine ⟨?_, ?_, hlen, hbound, hnd⟩
    · exact chainSeg_congr (fun i hi => by simp) hfwd
    · exact chainSeg_congr (fun i hi => by simp) hbwd

theorem setitem_of_getitem {s : Double α} {idx : Idx} {n : Nat} (v : α)
    (h : s.getitem idx = .ok n) :
    s.setitem idx v = (none, { s with heap := updValueD s.heap n v }) := by
  rw [Double.setitem, h]

/-- Pointwise conjunction of two adjacency properties. -/
theorem chain'_and {l : List Nat} {P Q : Nat → Nat → Prop}
    (hp : l.Chain' P) (hq : l.Chain' Q) : l.Chain' (fun a b => P a b ∧ Q a b) := by
  induction l with
  | nil => exact List.chain'_nil
  | cons x xs ih =>
    cases xs with
    | nil => simp
    | cons y ys =>
      rw [List.chain'_cons] at hp hq ⊢
      exact ⟨⟨hp.1, hq.1⟩, ih hp.2 hq.2⟩

theorem head_last_none {s : Double α} {c : List Nat} {hd : Nat}
    (hc : isChainD s c) (hh : s.head = some hd) : (s.heap hd).last_node = none := by
  have hhd : c.head? = some hd := by
    rw [← head_eq hc]
    exact hh
  refine chainSeg_getLast hc.2.1 ?_
  rw [List.getLast?_reverse]
  exact hhd

theorem tail_next_none {s : Double α} {c : List Nat} {t : Nat}
    (hc : isChainD s c) (ht : s.tail = some t) : (s.heap t).next_node = none := by
  refine chainSeg_getLast hc.1 ?_
  rw [← tail_eq hc]
  exact ht

/-- The forward links run along consecutive nodes of the traversal. -/
theorem chain_next {s : Double α} {c : List Nat} (hc : isChainD s c) :
    c.Chain' (fun a b => (s.heap a).next_node = some b) :=
  chainSeg_chain hc.1

/-- The back links mirror the forward links. -/
theorem chain_last {s : Double α} {c : List Nat} (hc : isChainD s c) :
    c.Chain' (fun a b => (s.heap b).last_node = some a) := by
  have h := chainSeg_chain hc.2.1
  rw [List.chain'_reverse] at h
  exact h

end Double

/-- The doubly-linked list states reachable from a constructor call by
any sequence of mutating operations with valid arguments: node
arguments must be nodes of the list (members of the traversal), index
arguments must resolve through `__getitem__` without raising. -/
inductive DReach {α : Type} [Inhabited α] [DecidableEq α] : Double α → Prop where
  | construct (vs : List α) : DReach (Double.ofList vs).2
  | append_tail {s : Double α} (v : α) : DReach s → DReach (s.append_tail v).2
  | append_head {s : Double α} (v : α) : DReach s → DReach (s.append_head v)
  | extend {s : Double α} (vs : List α) : DReach s → DReach (s.extend vs).2
  | insert_after_node {s : Double α} {i : Nat} (v : α) :
      DReach s → i ∈ Double.dtraverse s → DReach (s.insert_after (.node i) v).2
  | insert_after_idx {s : Double α} {j : Int} {n : Nat} (v : α) :
      DReach s → s.getitem (.int j) = .ok n → DReach (s.insert_after (.idx j) v).2
  | insert_before_node {s : Double α} {i : Nat} (v : α) :
      DReach s → i ∈ Double.dtraverse s → DReach (s.insert_before (.node i) v).2
  | insert_before_idx {s : Double α} {j : Int} {n : Nat} (v : α) :
      DReach s → s.getitem (.int j) = .ok n → DReach (s.insert_before (.idx j) v).2
  | remove_node {s : Double α} {i : Nat} :
      DReach s → i ∈ Double.dtraverse s → DReach (s.remove (.node i)).2
  | remove_idx {s : Double α} {j : Int} {n : Nat} :
      DReach s → s.getitem (.int j) = .ok n → DReach (s.remove (.idx j)).2
  | setitem {s : Double α} (idx : Idx) (v : α) : DReach s → DReach (s.setitem idx v).2

namespace Double

theorem insert_after_ref_node (s : Double α) (i : Nat) (v : α) :
    s.insert_after (.node i) v = s.insert_after_node i v := rfl

theorem insert_before_ref_node (s : Double α) (i : Nat) (v : α) :
    s.insert_before (.node i) v = s.insert_before_node i v := rfl

theorem remove_ref_node (s : Double α) (i : Nat) :
    s.remove (.node i) = s.remove_node i := rfl

theorem insert_after_ref_idx {s : Double α} {j : Int} {n : Nat} (v : α)
    (h : s.getitem (.int j) = .ok n) :
    s.insert_after (.idx j) v = s.insert_after_node n v := by
  rw [Double.insert_after]
  show (match s.getitem (.int j) with
        | .error e => (some e, s)
        | .ok n => s.insert_after_node n v) = s.insert_after_node n v
  rw [h]

theorem insert_before_ref_idx {s : Double α} {j : Int} {n : Nat} (v : α)
    (h : s.getitem (.int j) = .ok n) :
    s.insert_before (.idx j) v = s.insert_before_node n v := by
  rw [Double.insert_before]
  show (match s.getitem (.int j) with
        | .error e => (some e, s)
        | .ok n => s.insert_before_node n v) = s.insert_before_node n v
  rw [h]

theorem remove_ref_idx {s : Double α} {j : Int} {n : Nat}
    (h : s.getitem (.int j) = .ok n) :
    s.remove (.idx j) = s.remove_node n := by
  rw [Double.remove]
  show (match s.getitem (.int j) with
        | .error e => (some e, s)
        | .ok n => s.remove_node n) = s.remove_node n
  rw [h]

/-- Specification of the `__eq__` lock-step loop on two well-formed
non-empty suffixes: it returns exactly whether the value sequences of
the two suffixes agree. -/
theorem eqLoop_spec {α : Type} [Inhabited α] [DecidableEq α] {s t : Double α} :
    ∀ (c₁ : List Nat) (d₁ : List Nat) (fuel : Nat) (n o : Nat),
    chainSeg s.heap DNode.next_node (some n) c₁ none →
    chainSeg t.heap DNode.next_node (some o) d₁ none →
    s.tail = c₁.getLast? → t.tail = d₁.getLast? →
    c₁.Nodup → d₁.Nodup →
    c₁.length ≤ fuel →
    eqLoop s t fuel (some n) (some o) =
      .ok (decide (chainValuesF s.heap DNode.value c₁ =
                   chainValuesF t.heap DNode.value d₁)) := by
  intro c₁
  induction c₁ with
  | nil =>
    intro d₁ fuel n o hcseg
    exact absurd (show (some n : Option Nat) = none from hcseg) (by simp)
  | cons x rest ih =>
    intro d₁ fuel n o hcseg hdseg hctail hdtail hcnd hdnd hfuel
    have hxn : n = x := by injection hcseg.1
    subst hxn
    have hcrest : chainSeg s.heap DNode.next_node ((s.heap n).next_node) rest none :=
      hcseg.2
    cases d₁ with
    | nil => exact absurd (show (some o : Option Nat) = none from hdseg) (by simp)
    | cons y drest =>
      have hyo : o = y := by injection hdseg.1
      subst hyo
      have hdrest : chainSeg t.heap DNode.next_node ((t.heap o).next_node) drest none :=
        hdseg.2
      cases fuel with
      | zero => exact absurd hfuel (by simp)
      | succ f =>
        show (if (s.heap n).value ≠ (t.heap o).value then Except.ok false
          else if s.tail = some n ∧ t.tail = some o then Except.ok true
          else
            match (s.heap n).next_node, (t.heap o).next_node with
            | none, _ => Except.ok false
            | some _, none => Except.ok false
            | some n', some o' => eqLoop s t f (some n') (some o')) = _
        by_cases hv : (s.heap n).value = (t.heap o).value
        · rw [if_neg (by simpa using hv)]
          have hstail : s.tail = some n ↔ rest = [] := by
            constructor
            · intro hst
              cases hr : rest with
              | nil => rfl
              | cons r rest' =>
                rw [hr] at hctail
                rw [hctail] at hst
                have hgl : ((n :: r :: rest') : List Nat).getLast? =
                    (r :: rest').getLast? := by
                  simp [List.getLast?_cons_cons]
                rw [hgl] at hst
                have hmem : n ∈ r :: rest' := getLast?_mem_of_eq hst
                rw [← hr] at hmem
                exact absurd hmem (List.nodup_cons.mp hcnd).1
            · intro hr
              rw [hr] at hctail
              simpa using hctail
          have httail : t.tail = some o ↔ drest = [] := by
            constructor
            · intro hst
              cases hr : drest with
              | nil => rfl
              | cons r rest' =>
                rw [hr] at hdtail
                rw [hdtail] at hst
                have hgl : ((o :: r :: rest') : List Nat).getLast? =
                    (r :: rest').getLast? := by
                  simp [List.getLast?_cons_cons]
                rw [hgl] at hst
                have hmem : o ∈ r :: rest' := getLast?_mem_of_eq hst
                rw [← hr] at hmem
                exact absurd hmem (List.nodup_cons.mp hdnd).1
            · intro hr
              rw [hr] at hdtail
              simpa using hdtail
          cases hr : rest with
          | nil =>
            cases hdr : drest with
            | nil =>
              rw [if_pos ⟨hstail.mpr hr, httail.mpr hdr⟩]
              subst hr hdr
              simp [chainValuesF, hv]
            | cons w drest' =>
              rw [if_neg (fun hand => by
                have := httail.mp hand.2
                rw [hdr] at this
                exact List.noConfusion this)]
              subst hr
              have hnone : (s.heap n).next_node = none := hcrest
              rw [hnone]
              subst hdr
              show Except.ok false = _
              have : chainValuesF s.heap DNode.value [n] ≠
                  chainValuesF t.heap DNode.value (o :: w :: drest') := by
                intro heq
                have := congrArg List.length heq
                simp [chainValuesF] at this
              simp [this]
          | cons r rest' =>
            have hsomen : (s.heap n).next_node = some r := by
              have h' := hcrest
              rw [hr] at h'
              exact h'.1
            cases hdr : drest with
            | nil =>
              rw [if_neg (fun hand => by
                have := hstail.mp hand.1
                rw [hr] at this
                exact List.noConfusion this)]
              have hnone : (t.heap o).next_node = none := by
                have h' := hdrest
                rw [hdr] at h'
                exact h'
              rw [hsomen, hnone]
              show Except.ok false = _
              have hlen2 : chainValuesF s.heap DNode.value (n :: r :: rest') ≠
                  chainValuesF t.heap DNode.value [o] := by
                intro heq
                have hlg := congrArg List.length heq
                simp only [chainValuesF, List.length_map, List.length_cons,
                  List.length_nil] at hlg
                omega
              simp [hlen2]
            | cons w drest' =>
              rw [if_neg (fun hand => by
                have := hstail.mp hand.1
                rw [hr] at this
                exact List.noConfusion this)]
              have hsomeo : (t.heap o).next_node = some w := by
                have h' := hdrest
                rw [hdr] at h'
                exact h'.1
              rw [hsomen, hsomeo]
              show eqLoop s t f (some r) (some w) = _
              rw [hsomen] at hcrest
              rw [hsomeo] at hdrest
              have h3 : s.tail = rest.getLast? := by
                rw [hctail, hr]
                simp [List.getLast?_cons_cons]
              have h4 : t.tail = drest.getLast? := by
                rw [hdtail, hdr]
                simp [List.getLast?_cons_cons]
              have h5 : rest.Nodup := (List.nodup_cons.mp hcnd).2
              have h6 : drest.Nodup := (List.nodup_cons.mp hdnd).2
              have h7 : rest.length ≤ f := by
                simp only [List.length_cons] at hfuel
                omega
              have hcrest' : chainSeg s.heap DNode.next_node (some r) rest none := by
                rw [hr]
                have h' := hcrest
                rw [hr] at h'
                exact h'
              have hrec := ih drest f r w hcrest' hdrest h3 h4 h5 h6 h7
              rw [hrec]
              refine congrArg Except.ok (decide_eq_decide.mpr ?_)
              have hiff : (chainValuesF s.heap DNode.value rest =
                    chainValuesF t.heap DNode.value drest) ↔
                  (chainValuesF s.heap DNode.value (n :: rest) =
                    chainValuesF t.heap DNode.value (o :: drest)) := by
                simp [chainValuesF, hv]
              rw [← hr, ← hdr]
              exact hiff
        · rw [if_pos (by simpa using hv)]
          show Except.ok false = _
          have : chainValuesF s.heap DNode.value (n :: rest) ≠
              chainValuesF t.heap DNode.value (o :: drest) := by
            intro heq
            rw [chainValuesF, chainValuesF, List.map_cons, List.map_cons] at heq
            exact hv (by injection heq)
          simp [this]

/-- On two well-formed non-empty lists `__eq__` returns exactly whether
the value sequences agree. -/
theorem eq_spec {α : Type} [Inhabited α] [DecidableEq α] {s t : Double α} {c d : List Nat}
    (hc : isChainD s c) (hd : isChainD t d) (hcne : c ≠ []) (hdne : d ≠ []) :
    s.eq (some t) = .ok (decide (iter_values s = iter_values t)) := by
  cases hcc : c with
  | nil => exact absurd hcc hcne
  | cons x c' =>
    cases hdd : d with
    | nil => exact absurd hdd hdne
    | cons y d' =>
      have hhs : s.head = some x := by
        rw [head_eq hc, hcc]
        rfl
      have hht : t.head = some y := by
        rw [head_eq hd, hdd]
        rfl
      have hseg1 : chainSeg s.heap DNode.next_node (some x) c none := by
        rw [← hhs]
        exact hc.1
      have hseg2 : chainSeg t.heap DNode.next_node (some y) d none := by
        rw [← hht]
        exact hd.1
      have hspec := eqLoop_spec c d (s.size + 1) x y
        (by rw [hcc] at hseg1 ⊢; exact hcc ▸ hseg1)
        (by rw [hdd] at hseg2 ⊢; exact hdd ▸ hseg2)
        (tail_eq hc) (tail_eq hd) hc.2.2.2.2 hd.2.2.2.2
        (Nat.le_succ_of_le (chain_length_le hc))
      show eqLoop s t (s.size + 1) s.head t.head = _
      rw [hhs, hht]
      rw [iter_values_eq hc, iter_values_eq hd]
      exact hspec

/-- `__eq__` dereferences a `None` cursor when the left list is empty. -/
theorem eq_error_left {α : Type} [Inhabited α] [DecidableEq α] {s t : Double α} (hh : s.head = none) :
    s.eq (some t) = .error .attributeError := by
  show eqLoop s t (s.size + 1) s.head t.head = _
  rw [hh]
  rfl

/-- `__eq__` dereferences a `None` cursor when the right list is empty
and the left is not. -/
theorem eq_error_right {α : Type} [Inhabited α] [DecidableEq α] {s t : Double α} {x : Nat} (hs : s.head = some x)
    (hh : t.head = none) : s.eq (some t) = .error .attributeError := by
  show eqLoop s t (s.size + 1) s.head t.head = _
  rw [hh, hs]
  rfl

/-- Comparison against a non-list object: the `AttributeError` on
`other.head` is caught and `False` returned. -/
theorem eq_nonlist {α : Type} [Inhabited α] [DecidableEq α] (s : Double α) : s.eq none = .ok false := rfl

end Double

/-- Every reachable doubly-linked list state is well-formed. -/
theorem DReach.wf {α : Type} [Inhabited α] [DecidableEq α] {s : Double α}
    (h : DReach s) : ∃ c, Double.isChainD s c := by
  induction h with
  | construct vs =>
    obtain ⟨h1, c, h2, h3⟩ := Double.ofList_chain vs
    exact ⟨c, h2⟩
  | append_tail v _ ih =>
    obtain ⟨c, hc⟩ := ih
    exact ⟨c ++ [_], (Double.append_tail_chain v hc).2.1⟩
  | append_head v _ ih =>
    obtain ⟨c, hc⟩ := ih
    exact ⟨_ :: c, (Double.append_head_chain v hc).1⟩
  | extend vs _ ih =>
    obtain ⟨c, hc⟩ := ih
    obtain ⟨h1, c', h2, h3⟩ := Double.extend_chain vs hc
    exact ⟨c', h2⟩
  | insert_after_node v _ hm ih =>
    obtain ⟨c, hc⟩ := ih
    rw [Double.dtraverse_eq hc] at hm
    obtain ⟨c₁, c₂, rfl⟩ := List.append_of_mem hm
    rw [Double.insert_after_ref_node]
    exact ⟨_, (Double.insert_after_node_chain v hc).2.1⟩
  | insert_after_idx v _ hget ih =>
    obtain ⟨c, hc⟩ := ih
    have hm := Double.getitem_mem hc hget
    obtain ⟨c₁, c₂, rfl⟩ := List.append_of_mem hm
    rw [Double.insert_after_ref_idx v hget]
    exact ⟨_, (Double.insert_after_node_chain v hc).2.1⟩
  | insert_before_node v _ hm ih =>
    obtain ⟨c, hc⟩ := ih
    rw [Double.dtraverse_eq hc] at hm
    obtain ⟨c₁, c₂, rfl⟩ := List.append_of_mem hm
    rw [Double.insert_before_ref_node]
    exact ⟨_, (Double.insert_before_node_chain v hc).2.1⟩
  | insert_before_idx v _ hget ih =>
    obtain ⟨c, hc⟩ := ih
    have hm := Double.getitem_mem hc hget
    obtain ⟨c₁, c₂, rfl⟩ := List.append_of_mem hm
    rw [Double.insert_before_ref_idx v hget]
    exact ⟨_, (Double.insert_before_node_chain v hc).2.1⟩
  | remove_node _ hm ih =>
    obtain ⟨c, hc⟩ := ih
    rw [Double.dtraverse_eq hc] at hm
    obtain ⟨c₁, c₂, rfl⟩ := List.append_of_mem hm
    rw [Double.remove_ref_node]
    exact ⟨_, (Double.remove_node_chain hc).2.1⟩
  | remove_idx _ hget ih =>
    obtain ⟨c, hc⟩ := ih
    have hm := Double.getitem_mem hc hget
    obtain ⟨c₁, c₂, rfl⟩ := List.append_of_mem hm
    rw [Double.remove_ref_idx hget]
    exact ⟨_, (Double.remove_node_chain hc).2.1⟩
  | setitem idx v _ ih =>
    obtain ⟨c, hc⟩ := ih
    exact ⟨c, Double.setitem_chain idx v hc⟩

/-! ## Preservation of well-formedness by the `SinglyLinked` operations -/

namespace SinglyLinked

variable {α : Type} [Inhabited α] [DecidableEq α]

theorem schain_length_le {s : SinglyLinked α} {c : List Nat} (hc : isChainS s c) :
    c.length ≤ s.size :=
  nodup_length_le hc.2.2.2.2 hc.2.2.2.1

theorem straverse_eq {s : SinglyLinked α} {c : List Nat} (hc : isChainS s c) :
    straverse s = c :=
  traverseF_eq hc.1 (schain_length_le hc)

theorem siter_values_eq {s : SinglyLinked α} {c : List Nat} (hc : isChainS s c) :
    iter_values s = chainValuesF s.heap SNode.value c := by
  rw [iter_values, straverse_eq hc, chainValuesF]

theorem sappend_tail_chain {s : SinglyLinked α} {c : List Nat} (v : α) (hc : isChainS s c) :
    (s.append_tail v).1 = none ∧
    isChainS (s.append_tail v).2 (c ++ [s.size]) ∧
    chainValuesF (s.append_tail v).2.heap SNode.value (c ++ [s.size]) =
      chainValuesF s.heap SNode.value c ++ [v] := by
  obtain ⟨hfwd, htail, hlen, hbound, hnd⟩ := hc
  rcases List.eq_nil_or_concat c with rfl | ⟨c', t, hct⟩
  · have hh : s.head = none := hfwd
    have hstep : s.append_tail v =
        (none, { heap := Function.update s.heap s.size ⟨v, none⟩, size := s.size + 1,
                 head := some s.size, tail := some s.size, len := s.len + 1 }) := by
      simp [SinglyLinked.append_tail, hh]
    rw [hstep]
    have hlen0 : s.len = 0 := by simpa using hlen
    refine ⟨rfl, ⟨⟨rfl, ?_⟩, ?_, ?_, ?_, ?_⟩, ?_⟩
    · simp [Function.update_same, chainSeg]
    · simp
    · simp [hlen0]
    · simp
    · simp
    · simp [chainValuesF, Function.update_same]
  · rw [List.concat_eq_append] at hct
    subst hct
    have htne : t ∉ c' := (nodup_split hnd).1
    have htl : s.tail = some t := by
      rw [htail]
      simp
    have hhead : ∃ hd, s.head = some hd := by
      cases hcc : (c' ++ [t]) with
      | nil => exact absurd hcc (by simp)
      | cons x rest =>
        rw [hcc] at hfwd
        exact ⟨x, hfwd.1⟩
    obtain ⟨hd, hhd⟩ := hhead
    have htb : t < s.size := hbound t (by simp)
    have hstep : s.append_tail v =
        (none, { heap := updNextS (Function.update s.heap s.size ⟨v, none⟩) t (some s.size),
                 size := s.size + 1, head := s.head, tail := some s.size,
                 len := s.len + 1 }) := by
      simp [SinglyLinked.append_tail, hhd, htl]
    rw [hstep]
    set nid := s.size with hnid
    set h1 : Nat → SNode α := updNextS (Function.update s.heap nid ⟨v, none⟩) t (some nid)
      with hh1
    have htnid : t ≠ nid := by omega
    have hread : ∀ x, x ≠ nid → x ≠ t → h1 x = s.heap x := by
      intro x hx1 hx2
      rw [hh1, updNextS, Function.update_noteq hx2, Function.update_noteq hx1]
    have hreadt : h1 t = { s.heap t with next_node := some nid } := by
      rw [hh1, updNextS, Function.update_same, Function.update_noteq htnid]
    have hreadnid : h1 nid = ⟨v, none⟩ := by
      rw [hh1, updNextS, Function.update_noteq (Ne.symm htnid), Function.update_same]
    have hfresh : ∀ x ∈ c' ++ [t], x ≠ nid := by
      intro x hx
      have := hbound x hx
      omega
    have hreadc : ∀ x ∈ c', h1 x = s.heap x := by
      intro x hx
      exact hread x (hfresh x (by simp [hx])) (fun hxt => htne (hxt ▸ hx))
    obtain ⟨hf1, hf2⟩ := chainSeg_split_cons hfwd
    refine ⟨rfl, ⟨?_, ?_, ?_, ?_, ?_⟩, ?_⟩
    · show chainSeg h1 SNode.next_node s.head ((c' ++ [t]) ++ [nid]) none
      have hassoc : (c' ++ [t]) ++ [nid] = c' ++ t :: [nid] := by simp
      rw [hassoc]
      refine chainSeg_append_cons ?_ ?_
      · exact chainSeg_congr (fun i hi => by rw [hreadc i hi]) hf1
      · rw [hreadt]
        exact ⟨rfl, show (h1 nid).next_node = none by rw [hreadnid]⟩
    · show some nid = ((c' ++ [t]) ++ [nid]).getLast?
      simp
    · show s.len + 1 = (((c' ++ [t]) ++ [nid]).length : Int)
      rw [hlen]
      simp only [List.length_append, List.length_cons, List.length_nil]
      push_cast
      omega
    · intro i hi
      show i < nid + 1
      rcases List.mem_append.mp hi with hi | hi
      · exact Nat.lt_succ_of_lt (hbound i hi)
      · simp at hi
        omega
    · rw [List.nodup_append]
      refine ⟨hnd, by simp, ?_⟩
      intro x hx hx'
      simp at hx'
      exact hfresh x hx hx'
    · show chainValuesF h1 SNode.value ((c' ++ [t]) ++ [nid]) =
        chainValuesF s.heap SNode.value (c' ++ [t]) ++ [v]
      rw [chainValuesF, chainValuesF, List.map_append]
      congr 1
      · refine List.map_congr_left ?_
        intro i hi
        rcases List.mem_append.mp hi with hi | hi
        · rw [hreadc i hi]
        · simp at hi
          rw [hi, hreadt]
      · simp [hreadnid]

theorem sextend_chain {s : SinglyLinked α} {c : List Nat} (vs : List α) (hc : isChainS s c) :
    (s.extend vs).1 = none ∧
    ∃ c', isChainS (s.extend vs).2 c' ∧
      chainValuesF (s.extend vs).2.heap SNode.value c' =
        chainValuesF s.heap SNode.value c ++ vs := by
  induction vs generalizing s c with
  | nil =>
    refine ⟨rfl, c, hc, ?_⟩
    show chainValuesF s.heap SNode.value c = chainValuesF s.heap SNode.value c ++ []
    simp
  | cons v vs ih =>
    obtain ⟨h1, h2, h3⟩ := sappend_tail_chain v hc
    have hstep : s.extend (v :: vs) = (s.append_tail v).2.extend vs := by
      rcases hpair : s.append_tail v with ⟨e, s2⟩
      rw [hpair] at h1
      have he : e = none := h1
      subst he
      show (match s.append_tail v with
            | (none, s') => s'.extend vs
            | (some e, s') => (some e, s')) = s2.extend vs
      rw [hpair]
    rw [hstep]
    obtain ⟨h4, c', h5, h6⟩ := ih h2
    refine ⟨h4, c', h5, ?_⟩
    rw [h6, h3]
    simp

theorem sofList_chain (vs : List α) :
    (SinglyLinked.ofList vs).1 = none ∧
    ∃ c', isChainS (α := α) (SinglyLinked.ofList vs).2 c' ∧
      chainValuesF (SinglyLinked.ofList vs).2.heap SNode.value c' = vs := by
  have hempty : isChainS (α := α) SinglyLinked.empty [] := by
    refine ⟨rfl, rfl, rfl, ?_, List.nodup_nil⟩
    intro i hi
    exact absurd hi (List.not_mem_nil i)
  obtain ⟨h1, c', h2, h3⟩ := sextend_chain vs hempty
  exact ⟨h1, c', h2, by simpa [chainValuesF] using h3⟩

theorem stail_eq {s : SinglyLinked α} {c : List Nat} (hc : isChainS s c) :
    s.tail = c.getLast? := hc.2.1

theorem shead_eq {s : SinglyLinked α} {c : List Nat} (hc : isChainS s c) :
    s.head = c.head? := by
  cases hcc : c with
  | nil =>
    subst hcc
    exact hc.1
  | cons x rest =>
    subst hcc
    exact hc.1.1

theorem smem_of_tail_some {s : SinglyLinked α} {c : List Nat} {t : Nat}
    (hc : isChainS s c) (ht : s.tail = some t) : t ∈ c := by
  have htl := stail_eq hc
  rw [ht] at htl
  exact getLast?_mem_of_eq htl.symm

theorem sgetitem_mem {s : SinglyLinked α} {c : List Nat} {idx : Idx} {n : Nat}
    (hc : isChainS s c) (h : s.getitem idx = .ok n) : n ∈ c := by
  cases idx with
  | slice => exact absurd h (by simp [SinglyLinked.getitem])
  | int j =>
    rcases htt : s.tail with _ | t
    · simp only [SinglyLinked.getitem, htt] at h
      split at h
      · exact absurd h (by simp)
      · rcases hnth : nthNodeF s.heap SNode.next_node s.size s.head j.toNat with _ | m
        · rw [hnth] at h
          exact absurd h (by simp)
        · rw [hnth] at h
          have hmn : m = n := by
            injection h
          subst hmn
          exact nthNodeF_mem hc.1 hnth
    · simp only [SinglyLinked.getitem, htt] at h
      split at h
      · have hn : t = n := by
          injection h
        subst hn
        exact smem_of_tail_some hc htt
      · split at h
        · exact absurd h (by simp)
        · rcases hnth : nthNodeF s.heap SNode.next_node s.size s.head j.toNat with _ | m
          · rw [hnth] at h
            exact absurd h (by simp)
          · rw [hnth] at h
            have hmn : m = n := by
              injection h
            subst hmn
            exact nthNodeF_mem hc.1 hnth

theorem sgetitem_nonneg {s : SinglyLinked α} {c : List Nat} {j : Int}
    (hc : isChainS s c) (hj : 0 ≤ j) (hlt : j.toNat < c.length) :
    s.getitem (.int j) = .ok (c.get ⟨j.toNat, hlt⟩) := by
  have hnth : nthNodeF s.heap SNode.next_node s.size s.head j.toNat =
      some (c.get ⟨j.toNat, hlt⟩) :=
    nthNodeF_eq hc.1 hlt (Nat.lt_of_lt_of_le hlt (schain_length_le hc))
  rcases htt : s.tail with _ | t
  · simp only [SinglyLinked.getitem, htt]
    rw [if_neg (by omega), hnth]
  · simp only [SinglyLinked.getitem, htt]
    rw [if_neg (by omega), if_neg (by omega), hnth]

theorem sgetitem_neg_one {s : SinglyLinked α} {t : Nat} (ht : s.tail = some t) :
    s.getitem (.int (-1)) = .ok t := by
  simp only [SinglyLinked.getitem, ht]
  simp

theorem ssetitem_of_getitem {s : SinglyLinked α} {idx : Idx} {n : Nat} (v : α)
    (h : s.getitem idx = .ok n) :
    s.setitem idx v = (none, { s with heap := updValueS s.heap n v }) := by
  rw [SinglyLinked.setitem, h]

theorem ssetitem_chain {s : SinglyLinked α} {c : List Nat} (idx : Idx) (v : α)
    (hc : isChainS s c) : isChainS (s.setitem idx v).2 c := by
  rw [SinglyLinked.setitem]
  rcases hget : s.getitem idx with e | n
  · exact hc
  · obtain ⟨hfwd, htail, hlen, hbound, hnd⟩ := hc
    exact ⟨chainSeg_congr (fun i hi => by simp) hfwd, htail, hlen, hbound, hnd⟩

end SinglyLinked

/-! ## Claim theorems -/

/-- C1: the claim says `insert_after(t, v)` at the tail leaves the new
node last AND updates the list's tail reference, so `get(-1)` returns
`v`.  On `SinglyLinked` the code never updates `self.tail`: after
inserting `2` after the tail of `[1]`, the new node is the last node of
the chain, but `tail` still references the old node `0`, `get(-1)`
returns the old value `1`, and a subsequent `append_tail 3` overwrites
the old tail's link, losing the inserted node ( `[1, 3]` instead of
`[1, 2, 3]`).  The `Double` implementation behaves as claimed on the
same input. -/
theorem c1_singly_insert_after_tail_stale :
    SinglyLinked.iter_values ((SinglyLinked.ofList ([1] : List Int)).2.insert_after
      (.node 0) 2).2 = [1, 2] ∧
    ((SinglyLinked.ofList ([1] : List Int)).2.insert_after (.node 0) 2).2.tail = some 0 ∧
    ((SinglyLinked.ofList ([1] : List Int)).2.insert_after (.node 0) 2).2.getitem
      (.int (-1)) = .ok 0 ∧
    ((((SinglyLinked.ofList ([1] : List Int)).2.insert_after (.node 0) 2).2.heap 0).value
      = 1) ∧
    SinglyLinked.iter_values ((((SinglyLinked.ofList ([1] : List Int)).2.insert_after
      (.node 0) 2).2.append_tail 3).2) = [1, 3] ∧
    (((Double.ofList ([1] : List Int)).2.insert_after (.node 0) 2).2.tail = some 1 ∧
     ((Double.ofList ([1] : List Int)).2.insert_after (.node 0) 2).2.getitem
       (.int (-1)) = .ok 1 ∧
     (((Double.ofList ([1] : List Int)).2.insert_after (.node 0) 2).2.heap 1).value = 2) := by
  decide

/-- C3: the claim says the stored length counter always equals the
number of nodes reachable from `head`.  The sequence
`SinglyLinked(1); insert_after(node 0, 2); append_tail(3)` (all valid
arguments) produces a state with `_length = 3` whose forward traversal
reaches only the two nodes `[1, 3]` — a consequence of `insert_after`
never updating `tail` (see C1). -/
theorem c3_singly_length_reachability_mismatch :
    ((((SinglyLinked.ofList ([1] : List Int)).2.insert_after (.node 0) 2).2.append_tail
      3).2.len = 3) ∧
    SinglyLinked.iter_values ((((SinglyLinked.ofList ([1] : List Int)).2.insert_after
      (.node 0) 2).2.append_tail 3).2) = [1, 3] ∧
    (SinglyLinked.straverse ((((SinglyLinked.ofList ([1] : List Int)).2.insert_after
      (.node 0) 2).2.append_tail 3).2)).length = 2 := by
  decide

/-- C5: the claim says `remove(0)` on an empty list raises
`IndexOutOfRange`.  On `SinglyLinked` the `index == 0` branch of
`_remove_by_index` dereferences `self.head.next_node` with `head =
None`, raising `AttributeError` instead.  The other parts of the claim
behave as stated: `Double` raises `IndexError` there, negative indices
other than `-1` raise `IndexError`, and `remove(-1)` on a non-empty
list removes the last element. -/
theorem c5_remove_index_errors :
    ((SinglyLinked.ofList ([] : List Int)).2.remove (.idx 0)).1 =
      some PyErr.attributeError ∧
    ((Double.ofList ([] : List Int)).2.remove (.idx 0)).1 = some PyErr.indexError ∧
    ((SinglyLinked.ofList ([1, 2, 3] : List Int)).2.remove (.idx (-2))).1 =
      some PyErr.indexError ∧
    ((Double.ofList ([1, 2, 3] : List Int)).2.remove (.idx (-2))).1 =
      some PyErr.indexError ∧
    ((SinglyLinked.ofList ([1, 2, 3] : List Int)).2.remove (.idx 5)).1 =
      some PyErr.indexError ∧
    SinglyLinked.iter_values ((SinglyLinked.ofList ([1, 2, 3] : List Int)).2.remove
      (.idx (-1))).2 = [1, 2] ∧
    Double.iter_values ((Double.ofList ([1, 2, 3] : List Int)).2.remove
      (.idx (-1))).2 = [1, 2] := by
  decide

/-- C2 counterexample: the claim says two empty lists compare equal.
`Double.__eq__` enters its loop with `node = other_node = None` and
dereferences `node.value`, raising `AttributeError`: comparing two
empty `Double` lists raises instead of returning `True`. -/
theorem c2_empty_eq_counterexample :
    (Double.ofList ([] : List Int)).2.eq (some (Double.ofList ([] : List Int)).2) =
      .error PyErr.attributeError ∧
    (Double.ofList ([] : List Int)).2.eq (some (Double.ofList ([] : List Int)).2) ≠
      .ok true := by
  decide

/-- C6 counterexample: the claim says a raising operation leaves the
observable state unchanged.  Build `Double([1,2,3])`, remove the tail
node `2`, then `append_tail 4` (list is now `[1,2,4]`).  Passing the
stale node `2` to `remove` relinks its recorded predecessor (node `1`,
a live node) to `None`, truncating the live list to `[1,2]`, and only
then raises `AttributeError` on `node.next_node.last_node`. -/
theorem c6_remove_stale_node_mutates :
    Double.iter_values ((((Double.ofList ([1, 2, 3] : List Int)).2.remove
      (.node 2)).2.append_tail 4).2) = [1, 2, 4] ∧
    (((((Double.ofList ([1, 2, 3] : List Int)).2.remove (.node 2)).2.append_tail
      4).2.remove (.node 2)).1 = some PyErr.attributeError) ∧
    Double.iter_values (((((Double.ofList ([1, 2, 3] : List Int)).2.remove
      (.node 2)).2.append_tail 4).2.remove (.node 2)).2) = [1, 2] := by
  decide

/-- C4: on every doubly-linked list reachable by any sequence of
mutating operations with valid arguments, adjacent nodes A (earlier)
and B (later) satisfy `A.next_node = B` and `B.last_node = A`, the
head's back link is absent and the tail's forward link is absent. -/
theorem c4_double_back_link_invariant {α : Type} [Inhabited α] [DecidableEq α]
    {s : Double α} (h : DReach s) :
    (Double.dtraverse s).Chain'
      (fun a b => (s.heap a).next_node = some b ∧ (s.heap b).last_node = some a) ∧
    (∀ hd, s.head = some hd → (s.heap hd).last_node = none) ∧
    (∀ t, s.tail = some t → (s.heap t).next_node = none) := by
  obtain ⟨c, hc⟩ := h.wf
  rw [Double.dtraverse_eq hc]
  exact ⟨Double.chain'_and (Double.chain_next hc) (Double.chain_last hc),
    fun hd hh => Double.head_last_none hc hh,
    fun t ht => Double.tail_next_none hc ht⟩

/-- C4 witness: the invariant instantiated on the reachable state
`Double(1,2); insert_after(node 1, 5); remove(index 0)`. -/
theorem c4_double_back_link_invariant_witness :
    (Double.dtraverse ((((Double.ofList ([1, 2] : List Int)).2.insert_after (.node 1)
        5).2.remove (.idx 0)).2)).Chain'
      (fun a b =>
        (((((Double.ofList ([1, 2] : List Int)).2.insert_after (.node 1)
          5).2.remove (.idx 0)).2).heap a).next_node = some b ∧
        (((((Double.ofList ([1, 2] : List Int)).2.insert_after (.node 1)
          5).2.remove (.idx 0)).2).heap b).last_node = some a) ∧
    (∀ hd, ((((Double.ofList ([1, 2] : List Int)).2.insert_after (.node 1)
        5).2.remove (.idx 0)).2).head = some hd →
      (((((Double.ofList ([1, 2] : List Int)).2.insert_after (.node 1)
        5).2.remove (.idx 0)).2).heap hd).last_node = none) ∧
    (∀ t, ((((Double.ofList ([1, 2] : List Int)).2.insert_after (.node 1)
        5).2.remove (.idx 0)).2).tail = some t →
      (((((Double.ofList ([1, 2] : List Int)).2.insert_after (.node 1)
        5).2.remove (.idx 0)).2).heap t).next_node = none) := by
  have hreach : DReach ((((Double.ofList ([1, 2] : List Int)).2.insert_after (.node 1)
      5).2.remove (.idx 0)).2) :=
    DReach.remove_idx (DReach.insert_after_node 5 (DReach.construct [1, 2]) (by decide))
      (show ((Double.ofList ([1, 2] : List Int)).2.insert_after (.node 1) 5).2.getitem
        (.int 0) = .ok 0 by decide)
  exact c4_double_back_link_invariant hreach

/-- C7: constructing either list from a value sequence `vs` and
iterating the values yields exactly `vs` in order; on the doubly-linked
list `iter_reverse` yields the nodes carrying `vs.reverse`. -/
theorem c7_construct_roundtrip {α : Type} [Inhabited α] [DecidableEq α] (vs : List α) :
    (SinglyLinked.ofList vs).1 = none ∧
    SinglyLinked.iter_values (SinglyLinked.ofList vs).2 = vs ∧
    (Double.ofList vs).1 = none ∧
    Double.iter_values (Double.ofList vs).2 = vs ∧
    Double.reverse_values (Double.ofList vs).2 = vs.reverse := by
  obtain ⟨h1, c, hc, hv⟩ := SinglyLinked.sofList_chain vs
  obtain ⟨h2, d, hd, hw⟩ := Double.ofList_chain vs
  refine ⟨h1, ?_, h2, ?_, ?_⟩
  · rw [SinglyLinked.siter_values_eq hc, hv]
  · rw [Double.iter_values_eq hd, hw]
  · rw [Double.reverse_values_eq hd, hw]

/-- C8: `Double.remove` given a node reference performs no membership
check: for any node `i` that is neither the head nor the tail by
identity and whose back and forward links are set, `remove` raises
nothing, relinks the two recorded neighbours to each other, and
unconditionally decrements the length counter — whether or not `i`
belongs to the list. -/
theorem c8_remove_node_no_membership_check {α : Type} [Inhabited α] [DecidableEq α]
    (s : Double α) (i a b : Nat)
    (hhd : s.head ≠ some i) (htl : s.tail ≠ some i)
    (hla : (s.heap i).last_node = some a) (hnb : (s.heap i).next_node = some b) :
    (s.remove (.node i)).1 = none ∧
    (s.remove (.node i)).2.len = s.len - 1 ∧
    ((s.remove (.node i)).2.heap a).next_node = some b ∧
    ((s.remove (.node i)).2.heap b).last_node = some a := by
  have hn1 : (updNextD s.heap a (s.heap i).next_node i).next_node = some b := by
    rcases eq_or_ne i a with rfl | hia
    · rw [updNextD_next_self]
      exact hnb
    · rw [updNextD_next_of_ne _ _ _ hia]
      exact hnb
  have hstep : s.remove (.node i) =
      (none, { heap := updLastD (updNextD s.heap a (s.heap i).next_node) b
                 ((updNextD s.heap a (s.heap i).next_node i).last_node),
               size := s.size, head := s.head, tail := s.tail, len := s.len - 1 }) := by
    rw [Double.remove_ref_node]
    simp [Double.remove_node, hhd, htl, hla, hn1]
  rw [hstep]
  refine ⟨rfl, rfl, ?_, ?_⟩
  · show (updLastD (updNextD s.heap a (s.heap i).next_node) b
      ((updNextD s.heap a (s.heap i).next_node i).last_node) a).next_node = some b
    rw [updLastD_next, updNextD_next_self]
    exact hnb
  · show (updLastD (updNextD s.heap a (s.heap i).next_node) b
      ((updNextD s.heap a (s.heap i).next_node i).last_node) b).last_node = some a
    rw [updLastD_last_self, updNextD_last]
    exact hla

/-- C8 witness: removing the already-removed middle node of
`Double(1,2,3)` a second time: no error, neighbours relinked, length
decremented from 2 to 1 although the list still holds two nodes. -/
theorem c8_remove_node_no_membership_check_witness :
    ((((Double.ofList ([1, 2, 3] : List Int)).2.remove (.node 1)).2.remove
      (.node 1)).1 = none) ∧
    ((((Double.ofList ([1, 2, 3] : List Int)).2.remove (.node 1)).2.remove
      (.node 1)).2.len =
      (((Double.ofList ([1, 2, 3] : List Int)).2.remove (.node 1)).2.len - 1)) ∧
    (((((Double.ofList ([1, 2, 3] : List Int)).2.remove (.node 1)).2.remove
      (.node 1)).2.heap 0).next_node = some 2) ∧
    (((((Double.ofList ([1, 2, 3] : List Int)).2.remove (.node 1)).2.remove
      (.node 1)).2.heap 2).last_node = some 0) :=
  c8_remove_node_no_membership_check
    (((Double.ofList ([1, 2, 3] : List Int)).2.remove (.node 1)).2) 1 0 2
    (by decide) (by decide) (by decide) (by decide)

/-- C10: node equality compares wrapped values with a fallback to the
bare operand, and the same dispatch applies to the less-than
comparison, on both node classes. -/
theorem c10_node_value_comparisons {α : Type} [DecidableEq α] [LT α]
    [DecidableRel ((· < ·) : α → α → Prop)] :
    (∀ n m : SNode α, SNode.eq n (.inl m) = true ↔ n.value = m.value) ∧
    (∀ (n : SNode α) (v : α), SNode.eq n (.inr v) = true ↔ n.value = v) ∧
    (∀ n m : SNode α, SNode.lt n (.inl m) = true ↔ n.value < m.value) ∧
    (∀ (n : SNode α) (v : α), SNode.lt n (.inr v) = true ↔ n.value < v) ∧
    (∀ n m : DNode α, DNode.eq n (.inl m) = true ↔ n.value = m.value) ∧
    (∀ (n : DNode α) (v : α), DNode.eq n (.inr v) = true ↔ n.value = v) ∧
    (∀ n m : DNode α, DNode.lt n (.inl m) = true ↔ n.value < m.value) ∧
    (∀ (n : DNode α) (v : α), DNode.lt n (.inr v) = true ↔ n.value < v) := by
  refine ⟨fun n m => ?_, fun n v => ?_, fun n m => ?_, fun n v => ?_,
    fun n m => ?_, fun n v => ?_, fun n m => ?_, fun n v => ?_⟩ <;>
    simp [SNode.eq, SNode.lt, DNode.eq, DNode.lt]

/-- C2: the claim as stated fails on empty lists (see the
counterexample); as amended, on the doubly-linked container comparing
two non-empty well-formed lists returns exactly value-sequence
equality, any comparison where either list is empty raises
`AttributeError`, and comparing against a non-list returns `False`
(the `AttributeError` on `other.head` is caught); `SinglyLinked`
defines no `__eq__` of its own. -/
theorem c2_eq_value_semantics {α : Type} [Inhabited α] [DecidableEq α] :
    (∀ (s t : Double α) (c d : List Nat), Double.isChainD s c → Double.isChainD t d →
      c ≠ [] → d ≠ [] →
      s.eq (some t) = .ok (decide (Double.iter_values s = Double.iter_values t))) ∧
    (∀ s t : Double α, s.head = none → s.eq (some t) = .error .attributeError) ∧
    (∀ (s t : Double α) (x : Nat), s.head = some x → t.head = none →
      s.eq (some t) = .error .attributeError) ∧
    (∀ s : Double α, s.eq none = .ok false) :=
  ⟨fun _ _ _ _ hc hd hcne hdne => Double.eq_spec hc hd hcne hdne,
   fun _ _ hh => Double.eq_error_left hh,
   fun _ _ _ hs hh => Double.eq_error_right hs hh,
   fun s => Double.eq_nonlist s⟩

/-- C2 witness: the amended equality semantics evaluated on concrete
lists. -/
theorem c2_eq_value_semantics_witness :
    (Double.ofList ([4, 7] : List Int)).2.eq (some (Double.ofList ([4, 7] : List Int)).2) =
      .ok true ∧
    (Double.ofList ([4, 7] : List Int)).2.eq (some (Double.ofList ([4, 9] : List Int)).2) =
      .ok false ∧
    (Double.ofList ([4, 7] : List Int)).2.eq (some (Double.ofList ([] : List Int)).2) =
      .error PyErr.attributeError ∧
    (Double.ofList ([4, 7] : List Int)).2.eq none = .ok false := by
  have h1 := (c2_eq_value_semantics (α := Int)).1 (Double.ofList [4, 7]).2
    (Double.ofList [4, 7]).2 [0, 1] [0, 1] (by decide) (by decide) (by decide) (by decide)
  have h2 := (c2_eq_value_semantics (α := Int)).1 (Double.ofList [4, 7]).2
    (Double.ofList [4, 9]).2 [0, 1] [0, 1] (by decide) (by decide) (by decide) (by decide)
  have h3 := (c2_eq_value_semantics (α := Int)).2.2.1 (Double.ofList ([4, 7] : List Int)).2
    (Double.ofList ([] : List Int)).2 0 (by decide) (by decide)
  have h4 := (c2_eq_value_semantics (α := Int)).2.2.2 (Double.ofList ([4, 7] : List Int)).2
  refine ⟨?_, ?_, h3, h4⟩
  · rw [h1]
    decide
  · rw [h2]
    decide

/-! ## Assignment of one value along a chain -/

theorem chainValuesF_updValueD {α : Type} {h : Nat → DNode α} {c : List Nat}
    (hnd : c.Nodup) {p : Nat} (hp : p < c.length) (v : α) :
    chainValuesF (updValueD h (c.get ⟨p, hp⟩) v) DNode.value c =
      (chainValuesF h DNode.value c).set p v := by
  refine List.ext_get ?_ ?_
  · simp [chainValuesF]
  · intro k h1 h2
    have hk : k < c.length := by simpa [chainValuesF] using h1
    simp only [chainValuesF] at h1 h2 ⊢
    rcases eq_or_ne k p with rfl | hkp
    · rw [List.get_set_eq h2, List.get_map]
      exact updValueD_value_self h (c.get ⟨k, hp⟩) v
    · rw [List.get_set_of_ne (Ne.symm hkp), List.get_map, List.get_map]
      refine updValueD_value_of_ne h (c.get ⟨p, hp⟩) v ?_
      intro heq
      exact hkp (congrArg Fin.val (hnd.get_inj_iff.mp heq))

theorem chainValuesF_updValueS {α : Type} {h : Nat → SNode α} {c : List Nat}
    (hnd : c.Nodup) {p : Nat} (hp : p < c.length) (v : α) :
    chainValuesF (updValueS h (c.get ⟨p, hp⟩) v) SNode.value c =
      (chainValuesF h SNode.value c).set p v := by
  refine List.ext_get ?_ ?_
  · simp [chainValuesF]
  · intro k h1 h2
    have hk : k < c.length := by simpa [chainValuesF] using h1
    simp only [chainValuesF] at h1 h2 ⊢
    rcases eq_or_ne k p with rfl | hkp
    · rw [List.get_set_eq h2, List.get_map]
      exact updValueS_value_self h (c.get ⟨k, hp⟩) v
    · rw [List.get_set_of_ne (Ne.symm hkp), List.get_map, List.get_map]
      refine updValueS_value_of_ne h (c.get ⟨p, hp⟩) v ?_
      intro heq
      exact hkp (congrArg Fin.val (hnd.get_inj_iff.mp heq))

namespace Double

variable {α : Type} [Inhabited α] [DecidableEq α]

/-- Frame property of a successful `__setitem__` resolving to the node
at position `p` of the chain. -/
theorem setitem_frame {s : Double α} {c : List Nat} {j : Int} {p : Nat} (v : α)
    (hc : isChainD s c) (hp : p < c.length)
    (hj : s.getitem (.int j) = .ok (c.get ⟨p, hp⟩)) :
    (s.setitem (.int j) v).1 = none ∧
    (s.setitem (.int j) v).2.head = s.head ∧
    (s.setitem (.int j) v).2.tail = s.tail ∧
    (s.setitem (.int j) v).2.len = s.len ∧
    (s.setitem (.int j) v).2.size = s.size ∧
    (∀ x, ((s.setitem (.int j) v).2.heap x).next_node = (s.heap x).next_node) ∧
    (∀ x, ((s.setitem (.int j) v).2.heap x).last_node = (s.heap x).last_node) ∧
    isChainD (s.setitem (.int j) v).2 c ∧
    iter_values (s.setitem (.int j) v).2 = (iter_values s).set p v := by
  have hstep := setitem_of_getitem v hj
  rw [hstep]
  obtain ⟨hf, hb, hl, hbd, hnd⟩ := hc
  have hchain : isChainD { s with heap := updValueD s.heap (c.get ⟨p, hp⟩) v } c :=
    ⟨chainSeg_congr (fun i _ => by simp) hf, chainSeg_congr (fun i _ => by simp) hb,
     hl, hbd, hnd⟩
  refine ⟨rfl, rfl, rfl, rfl, rfl, fun x => by simp, fun x => by simp, hchain, ?_⟩
  rw [iter_values_eq hchain]
  show chainValuesF (updValueD s.heap (c.get ⟨p, hp⟩) v) DNode.value c = _
  rw [chainValuesF_updValueD hnd hp v, ← iter_values_eq ⟨hf, hb, hl, hbd, hnd⟩]

end Double

namespace SinglyLinked

variable {α : Type} [Inhabited α] [DecidableEq α]

/-- Frame property of a successful `__setitem__` resolving to the node
at position `p` of the chain. -/
theorem ssetitem_frame {s : SinglyLinked α} {c : List Nat} {j : Int} {p : Nat} (v : α)
    (hc : isChainS s c) (hp : p < c.length)
    (hj : s.getitem (.int j) = .ok (c.get ⟨p, hp⟩)) :
    (s.setitem (.int j) v).1 = none ∧
    (s.setitem (.int j) v).2.head = s.head ∧
    (s.setitem (.int j) v).2.tail = s.tail ∧
    (s.setitem (.int j) v).2.len = s.len ∧
    (s.setitem (.int j) v).2.size = s.size ∧
    (∀ x, ((s.setitem (.int j) v).2.heap x).next_node = (s.heap x).next_node) ∧
    isChainS (s.setitem (.int j) v).2 c ∧
    iter_values (s.setitem (.int j) v).2 = (iter_values s).set p v := by
  have hstep := ssetitem_of_getitem v hj
  rw [hstep]
  obtain ⟨hf, ht, hl, hbd, hnd⟩ := hc
  have hchain : isChainS { s with heap := updValueS s.heap (c.get ⟨p, hp⟩) v } c :=
    ⟨chainSeg_congr (fun i _ => by simp) hf, ht, hl, hbd, hnd⟩
  refine ⟨rfl, rfl, rfl, rfl, rfl, fun x => by simp, hchain, ?_⟩
  rw [siter_values_eq hchain]
  show chainValuesF (updValueS s.heap (c.get ⟨p, hp⟩) v) SNode.value c = _
  rw [chainValuesF_updValueS hnd hp v, ← siter_values_eq ⟨hf, ht, hl, hbd, hnd⟩]

/-- Index `-1` on a non-empty well-formed list resolves to the last
position of the chain. -/
theorem sgetitem_neg_one_pos {s : SinglyLinked α} {c : List Nat} (hc : isChainS s c)
    (hne : c ≠ []) (hp : c.length - 1 < c.length) :
    s.getitem (.int (-1)) = .ok (c.get ⟨c.length - 1, hp⟩) := by
  have ht : s.tail = some (c.get ⟨c.length - 1, hp⟩) := by
    rw [stail_eq hc, List.getLast?_eq_getLast_of_ne_nil hne, List.getLast_eq_get]
  exact sgetitem_neg_one ht

end SinglyLinked

namespace Double

variable {α : Type} [Inhabited α] [DecidableEq α]

/-- Index `-1` on a non-empty well-formed list resolves to the last
position of the chain. -/
theorem getitem_neg_one_pos {s : Double α} {c : List Nat} (hc : isChainD s c)
    (hne : c ≠ []) (hp : c.length - 1 < c.length) :
    s.getitem (.int (-1)) = .ok (c.get ⟨c.length - 1, hp⟩) := by
  have ht : s.tail = some (c.get ⟨c.length - 1, hp⟩) := by
    rw [tail_eq hc, List.getLast?_eq_getLast_of_ne_nil hne, List.getLast_eq_get]
  exact getitem_neg_one hc ht

end Double

/-- C9: for a valid index (non-negative below the length, or `-1` on a
non-empty list, resolving to position `p`), `__setitem__` changes only
the value stored at position `p`: no error is raised, `head`, `tail`,
the length counter, the allocation counter, every forward (and, for
`Double`, backward) link are unchanged, the same chain of node
addresses remains well-formed (node identity preserved), and the value
sequence is the old one with position `p` set. -/
theorem c9_setitem_only_changes_value {α : Type} [Inhabited α] [DecidableEq α] :
    (∀ (s : SinglyLinked α) (c : List Nat) (j : Int) (p : Nat) (v : α),
      SinglyLinked.isChainS s c → (hp : p < c.length) →
      ((0 ≤ j ∧ j.toNat = p) ∨ (j = -1 ∧ p = c.length - 1)) →
      (s.setitem (.int j) v).1 = none ∧
      (s.setitem (.int j) v).2.head = s.head ∧
      (s.setitem (.int j) v).2.tail = s.tail ∧
      (s.setitem (.int j) v).2.len = s.len ∧
      (s.setitem (.int j) v).2.size = s.size ∧
      (∀ x, ((s.setitem (.int j) v).2.heap x).next_node = (s.heap x).next_node) ∧
      SinglyLinked.isChainS (s.setitem (.int j) v).2 c ∧
      SinglyLinked.iter_values (s.setitem (.int j) v).2 =
        (SinglyLinked.iter_values s).set p v) ∧
    (∀ (s : Double α) (c : List Nat) (j : Int) (p : Nat) (v : α),
      Double.isChainD s c → (hp : p < c.length) →
      ((0 ≤ j ∧ j.toNat = p) ∨ (j = -1 ∧ p = c.length - 1)) →
      (s.setitem (.int j) v).1 = none ∧
      (s.setitem (.int j) v).2.head = s.head ∧
      (s.setitem (.int j) v).2.tail = s.tail ∧
      (s.setitem (.int j) v).2.len = s.len ∧
      (s.setitem (.int j) v).2.size = s.size ∧
      (∀ x, ((s.setitem (.int j) v).2.heap x).next_node = (s.heap x).next_node) ∧
      (∀ x, ((s.setitem (.int j) v).2.heap x).last_node = (s.heap x).last_node) ∧
      Double.isChainD (s.setitem (.int j) v).2 c ∧
      Double.iter_values (s.setitem (.int j) v).2 =
        (Double.iter_values s).set p v) := by
  constructor
  · intro s c j p v hc hp hvalid
    rcases hvalid with ⟨hj0, hjp⟩ | ⟨hj1, hpl⟩
    · subst hjp
      exact SinglyLinked.ssetitem_frame v hc hp (SinglyLinked.sgetitem_nonneg hc hj0 hp)
    · subst hj1
      subst hpl
      have hne : c ≠ [] := by
        intro h
        rw [h] at hp
        simp at hp
      exact SinglyLinked.ssetitem_frame v hc hp
        (SinglyLinked.sgetitem_neg_one_pos hc hne hp)
  · intro s c j p v hc hp hvalid
    rcases hvalid with ⟨hj0, hjp⟩ | ⟨hj1, hpl⟩
    · subst hjp
      exact Double.setitem_frame v hc hp (Double.getitem_nonneg hc hj0 hp)
    · subst hj1
      subst hpl
      have hne : c ≠ [] := by
        intro h
        rw [h] at hp
        simp at hp
      exact Double.setitem_frame v hc hp (Double.getitem_neg_one_pos hc hne hp)

/-- C9 witness: `set(1, 9)` on `SinglyLinked(3,4,5)` and `set(-1, 9)`
on `Double(3,4,5)`. -/
theorem c9_setitem_only_changes_value_witness :
    ((SinglyLinked.ofList ([3, 4, 5] : List Int)).2.setitem (.int 1) 9).1 = none ∧
    SinglyLinked.iter_values
      ((SinglyLinked.ofList ([3, 4, 5] : List Int)).2.setitem (.int 1) 9).2 = [3, 9, 5] ∧
    ((Double.ofList ([3, 4, 5] : List Int)).2.setitem (.int (-1)) 9).2.tail =
      (Double.ofList ([3, 4, 5] : List Int)).2.tail ∧
    Double.iter_values
      ((Double.ofList ([3, 4, 5] : List Int)).2.setitem (.int (-1)) 9).2 = [3, 4, 9] := by
  have h1 := (c9_setitem_only_changes_value (α := Int)).1
    (SinglyLinked.ofList ([3, 4, 5] : List Int)).2 [0, 1, 2] 1 1 9
    (by decide) (by decide) (Or.inl ⟨by decide, by decide⟩)
  have h2 := (c9_setitem_only_changes_value (α := Int)).2
    (Double.ofList ([3, 4, 5] : List Int)).2 [0, 1, 2] (-1) 2 9
    (by decide) (by decide) (Or.inr ⟨rfl, by decide⟩)
  refine ⟨h1.1, ?_, h2.2.2.1, ?_⟩
  · rw [h1.2.2.2.2.2.2.2]
    decide
  · rw [h2.2.2.2.2.2.2.2.2]
    decide

/-! ## Failure frames: raising paths that return the state unchanged -/

namespace SinglyLinked

variable {α : Type} [Inhabited α] [DecidableEq α]

theorem _remove_by_node_fst_or (s : SinglyLinked α) (n : Nat) :
    (s._remove_by_node n).1 = none ∨ (s._remove_by_node n).2 = s := by
  unfold SinglyLinked._remove_by_node
  repeat' first
    | exact Or.inl rfl
    | exact Or.inr rfl
    | split
    | dsimp only

theorem _remove_by_index_fst_or (s : SinglyLinked α) (j : Int) :
    (s._remove_by_index j).1 = none ∨ (s._remove_by_index j).2 = s := by
  unfold SinglyLinked._remove_by_index
  dsimp only
  repeat' first
    | exact Or.inl rfl
    | exact Or.inr rfl
    | split
    | dsimp only

theorem remove_err {s : SinglyLinked α} {r : Ref} (h : (s.remove r).1 ≠ none) :
    (s.remove r).2 = s := by
  cases r with
  | node n =>
    have hcases := _remove_by_node_fst_or s n
    rcases hrm : s._remove_by_node n with ⟨e, s'⟩
    rw [hrm] at hcases
    have hrw : s.remove (.node n) =
        (match (e, s') with
          | (none, s') => ((none : Option PyErr), { s' with len := s'.len - 1 })
          | (some e, s') => (some e, s')) := by
      show (match s._remove_by_node n with
        | (none, s') => ((none : Option PyErr), { s' with len := s'.len - 1 })
        | (some e, s') => (some e, s')) = _
      rw [hrm]
    cases e with
    | none =>
      rw [hrw] at h
      exact absurd rfl h
    | some e =>
      rw [hrw]
      rcases hcases with h1 | h2
      · exact absurd h1 (by simp)
      · exact h2
  | idx j =>
    have hcases := _remove_by_index_fst_or s j
    rcases hrm : s._remove_by_index j with ⟨e, s'⟩
    rw [hrm] at hcases
    have hrw : s.remove (.idx j) =
        (match (e, s') with
          | (none, s') => ((none : Option PyErr), { s' with len := s'.len - 1 })
          | (some e, s') => (some e, s')) := by
      show (match s._remove_by_index j with
        | (none, s') => ((none : Option PyErr), { s' with len := s'.len - 1 })
        | (some e, s') => (some e, s')) = _
      rw [hrm]
    cases e with
    | none =>
      rw [hrw] at h
      exact absurd rfl h
    | some e =>
      rw [hrw]
      rcases hcases with h1 | h2
      · exact absurd h1 (by simp)
      · exact h2

theorem ssetitem_err {s : SinglyLinked α} {idx : Idx} {v : α}
    (h : (s.setitem idx v).1 ≠ none) : (s.setitem idx v).2 = s := by
  rcases hget : s.getitem idx with e | n
  · have hrw : s.setitem idx v = (some e, s) := by
      rw [SinglyLinked.setitem, hget]
    rw [hrw]
  · rw [ssetitem_of_getitem v hget] at h
    exact absurd rfl h

theorem insert_after_idx_fst_or (s : SinglyLinked α) (j : Int) (v : α) :
    (s.insert_after (.idx j) v).1 = none ∨ (s.insert_after (.idx j) v).2 = s := by
  unfold SinglyLinked.insert_after
  repeat' first
    | exact Or.inl rfl
    | exact Or.inr rfl
    | split
    | dsimp only

theorem sinsert_after_idx_err {s : SinglyLinked α} {j : Int} {v : α}
    (h : (s.insert_after (.idx j) v).1 ≠ none) : (s.insert_after (.idx j) v).2 = s :=
  (insert_after_idx_fst_or s j v).resolve_left h

end SinglyLinked

namespace Double

variable {α : Type} [Inhabited α] [DecidableEq α]

theorem setitem_err {s : Double α} {idx : Idx} {v : α}
    (h : (s.setitem idx v).1 ≠ none) : (s.setitem idx v).2 = s := by
  rcases hget : s.getitem idx with e | n
  · have hrw : s.setitem idx v = (some e, s) := by
      rw [Double.setitem, hget]
    rw [hrw]
  · rw [setitem_of_getitem v hget] at h
    exact absurd rfl h

theorem remove_idx_err {s : Double α} {c : List Nat} {j : Int} (hc : isChainD s c)
    (h : (s.remove (.idx j)).1 ≠ none) : (s.remove (.idx j)).2 = s := by
  rcases hget : s.getitem (.int j) with e | n
  · have hrw : s.remove (.idx j) = (some e, s) := by
      show (match s.getitem (.int j) with
        | .error e => (some e, s)
        | .ok n => s.remove_node n) = _
      rw [hget]
    rw [hrw]
  · exfalso
    apply h
    rw [remove_ref_idx hget]
    have hm := getitem_mem hc hget
    obtain ⟨c₁, c₂, rfl⟩ := List.append_of_mem hm
    exact (remove_node_chain hc).1

theorem insert_after_idx_err {s : Double α} {c : List Nat} {j : Int} {v : α}
    (hc : isChainD s c) (h : (s.insert_after (.idx j) v).1 ≠ none) :
    (s.insert_after (.idx j) v).2 = s := by
  rcases hget : s.getitem (.int j) with e | n
  · have hrw : s.insert_after (.idx j) v = (some e, s) := by
      show (match s.getitem (.int j) with
        | .error e => (some e, s)
        | .ok n => s.insert_after_node n v) = _
      rw [hget]
    rw [hrw]
  · exfalso
    apply h
    rw [insert_after_ref_idx v hget]
    have hm := getitem_mem hc hget
    obtain ⟨c₁, c₂, rfl⟩ := List.append_of_mem hm
    exact (insert_after_node_chain v hc).1

theorem insert_before_idx_err {s : Double α} {c : List Nat} {j : Int} {v : α}
    (hc : isChainD s c) (h : (s.insert_before (.idx j) v).1 ≠ none) :
    (s.insert_before (.idx j) v).2 = s := by
  rcases hget : s.getitem (.int j) with e | n
  · have hrw : s.insert_before (.idx j) v = (some e, s) := by
      show (match s.getitem (.int j) with
        | .error e => (some e, s)
        | .ok n => s.insert_before_node n v) = _
      rw [hget]
    rw [hrw]
  · exfalso
    apply h
    rw [insert_before_ref_idx v hget]
    have hm := getitem_mem hc hget
    obtain ⟨c₁, c₂, rfl⟩ := List.append_of_mem hm
    exact (insert_before_node_chain v hc).1

end Double

/-- C6: the claim as stated fails for `Double.remove` given a stale
node reference (see the counterexample, where live links are mutated
before the raise); as amended, every raising call of
`__setitem__` (any index, both containers), of `SinglyLinked.remove`
(node or index argument), of `SinglyLinked.insert_after` with an index,
and — on well-formed lists — of `Double.remove`, `Double.insert_after`
and `Double.insert_before` with an index argument, returns the state
unchanged; `Double` mutation through a node reference not in the list
is excluded. -/
theorem c6_failed_operations_preserve_state {α : Type} [Inhabited α] [DecidableEq α] :
    (∀ (s : SinglyLinked α) (idx : Idx) (v : α),
      (s.setitem idx v).1 ≠ none → (s.setitem idx v).2 = s) ∧
    (∀ (s : SinglyLinked α) (r : Ref), (s.remove r).1 ≠ none → (s.remove r).2 = s) ∧
    (∀ (s : SinglyLinked α) (j : Int) (v : α),
      (s.insert_after (.idx j) v).1 ≠ none → (s.insert_after (.idx j) v).2 = s) ∧
    (∀ (t : Double α) (idx : Idx) (v : α),
      (t.setitem idx v).1 ≠ none → (t.setitem idx v).2 = t) ∧
    (∀ (t : Double α) (c : List Nat) (j : Int), Double.isChainD t c →
      (t.remove (.idx j)).1 ≠ none → (t.remove (.idx j)).2 = t) ∧
    (∀ (t : Double α) (c : List Nat) (j : Int) (v : α), Double.isChainD t c →
      (t.insert_after (.idx j) v).1 ≠ none → (t.insert_after (.idx j) v).2 = t) ∧
    (∀ (t : Double α) (c : List Nat) (j : Int) (v : α), Double.isChainD t c →
      (t.insert_before (.idx j) v).1 ≠ none → (t.insert_before (.idx j) v).2 = t) :=
  ⟨fun _ _ _ h => SinglyLinked.ssetitem_err h,
   fun _ _ h => SinglyLinked.remove_err h,
   fun _ _ _ h => SinglyLinked.sinsert_after_idx_err h,
   fun _ _ _ h => Double.setitem_err h,
   fun _ _ _ hc h => Double.remove_idx_err hc h,
   fun _ _ _ _ hc h => Double.insert_after_idx_err hc h,
   fun _ _ _ _ hc h => Double.insert_before_idx_err hc h⟩

/-- C6 witness: raising calls on concrete lists leave the state
unchanged. -/
theorem c6_failed_operations_preserve_state_witness :
    ((SinglyLinked.ofList ([1, 2] : List Int)).2.setitem .slice 9).2 =
      (SinglyLinked.ofList ([1, 2] : List Int)).2 ∧
    ((SinglyLinked.ofList ([1, 2] : List Int)).2.remove (.idx 7)).2 =
      (SinglyLinked.ofList ([1, 2] : List Int)).2 ∧
    ((SinglyLinked.ofList ([1, 2] : List Int)).2.insert_after (.idx (-4)) 9).2 =
      (SinglyLinked.ofList ([1, 2] : List Int)).2 ∧
    ((Double.ofList ([1, 2] : List Int)).2.setitem (.int 5) 9).2 =
      (Double.ofList ([1, 2] : List Int)).2 ∧
    ((Double.ofList ([1, 2] : List Int)).2.remove (.idx (-3))).2 =
      (Double.ofList ([1, 2] : List Int)).2 ∧
    ((Double.ofList ([1, 2] : List Int)).2.insert_after (.idx 9) 9).2 =
      (Double.ofList ([1, 2] : List Int)).2 ∧
    ((Double.ofList ([1, 2] : List Int)).2.insert_before (.idx 9) 9).2 =
      (Double.ofList ([1, 2] : List Int)).2 := by
  refine ⟨?_, ?_, ?_, ?_, ?_, ?_, ?_⟩
  · exact (c6_failed_operations_preserve_state (α := Int)).1 _ .slice 9 (by decide)
  · exact (c6_failed_operations_preserve_state (α := Int)).2.1 _ (.idx 7) (by decide)
  · exact (c6_failed_operations_preserve_state (α := Int)).2.2.1 _ (-4) 9 (by decide)
  · exact (c6_failed_operations_preserve_state (α := Int)).2.2.2.1 _ (.int 5) 9 (by decide)
  · exact (c6_failed_operations_preserve_state (α := Int)).2.2.2.2.1 _ [0, 1] (-3)
      (by decide) (by decide)
  · exact (c6_failed_operations_preserve_state (α := Int)).2.2.2.2.2.1 _ [0, 1] 9 9
      (by decide) (by decide)
  · exact (c6_failed_operations_preserve_state (α := Int)).2.2.2.2.2.2 _ [0, 1] 9 9
      (by decide) (by decide)
